import Mathlib

/-
Verification of the Train Dominoes engine (engine/models/domino.py,
engine/models/train.py, engine/models/game.py, engine/constants.py).

Modelling conventions for the shallow embedding:
* Python `Domino` objects are immutable records here; in-place `flip`
  becomes a function returning the flipped record, and every operation
  that mutates a collection of tiles returns the updated collection.
* Python `set`/`dict` values are modelled as lists:
  - a `set` of dominoes is a list whose membership is read up to the
    orientation-invariant equality `Domino.eq` (the `__eq__`/`__hash__`
    of the source);
  - a `dict` is an association list in insertion order; updating an
    existing key keeps the stored key object and replaces the value,
    exactly as CPython dicts do.
* Python `TreeNode` objects are handled by reference; here the tree
  keeps an arena `nodes : List TreeNode` and object references become
  stable indices into that arena.
* A Python method that can raise becomes a function into `Except`;
  an exception leaves the functional state untouched (the claims under
  study only concern fully successful operations or operations probed
  at concrete inputs).
* Iteration order of Python sets is unspecified; the embedding uses
  the list order as one fixed admissible order.  None of the claims
  proved below depend on a particular set-iteration order.
-/

set_option maxRecDepth 4000

/-- A domino tile: an oriented pair of face values (engine/models/domino.py, class Domino). -/
structure Domino where
  top : Nat
  bottom : Nat
deriving DecidableEq, Repr

/-- Orientation-invariant equality, `Domino.__eq__`. -/
def Domino.eq (a b : Domino) : Bool :=
  (a.top == b.top && a.bottom == b.bottom) || (a.top == b.bottom && a.bottom == b.top)

/-- `Domino.__hash__`: `hash(tuple(sorted([top, bottom])))`, modelled by the sorted
pair itself (an injective stand-in for the Python hash of that pair). -/
def Domino.hsh (d : Domino) : Nat × Nat :=
  (min d.top d.bottom, max d.top d.bottom)

/-- `Domino.value`: 50 for the (0,0) tile, face sum otherwise. -/
def Domino.value (d : Domino) : Nat :=
  if d.top == 0 && d.bottom == 0 then 50 else d.top + d.bottom

/-- `Domino.flip`: the same tile with top and bottom swapped. -/
def Domino.flip (d : Domino) : Domino := ⟨d.bottom, d.top⟩

/-- `Domino.matches`: this tile's top equals the `above` tile's bottom. -/
def Domino.matches (d above : Domino) : Bool := d.top == above.bottom

/-- `Domino.matches_flipped`: this tile's bottom equals the `above` tile's bottom. -/
def Domino.matches_flipped (d above : Domino) : Bool := d.bottom == above.bottom

/-- `Domino.is_double`. -/
def Domino.is_double (d : Domino) : Bool := d.top == d.bottom

/-- `SIDE_MIN` from engine/constants.py. -/
def SIDE_MIN : Nat := 0

/-- `COMMUNITY_TRAIN` from engine/constants.py. -/
def COMMUNITY_TRAIN : String := "community_train"

/-- `MAX_ROUNDS` from engine/constants.py. -/
def MAX_ROUNDS : Nat := 10

/-- `get_domino_parameters` from engine/constants.py: (highest side value, hand size). -/
def get_domino_parameters (player_count : Nat) : Except String (Nat × Nat) :=
  if player_count < 2 then
    .error "Cannot play Train Dominoes with fewer than 2 players."
  else if player_count ≤ 3 then .ok (9, 8)
  else if player_count ≤ 6 then .ok (12, 12)
  else if player_count ≤ 8 then .ok (12, 10)
  else if player_count ≤ 12 then .ok (15, 11)
  else if player_count ≤ 14 then .ok (18, 11)
  else .error "Cannot play Train Dominoes with greater than 14 players."

/-- `Game.generate_dominoes`: all pairs (i, j) with SIDE_MIN ≤ i ≤ j ≤ SIDE_MAX. -/
def generate_dominoes (SIDE_MAX : Nat) : List Domino :=
  (List.range (SIDE_MAX + 1)).flatMap
    (fun i => (List.range (SIDE_MAX + 1 - i)).map (fun k => Domino.mk i (i + k)))

/-- The conditional flip a single tile undergoes inside `DominoSet.all_matching`. -/
def amFlip (to_match : Domino) (d : Domino) : Domino :=
  if d.matches_flipped to_match then d.flip else d

/-- `DominoSet.all_matching`: one pass over the set; a tile is flipped in place when
its bottom matches, then collected when its top matches.  Returns the updated set
contents together with the matched tiles. -/
def all_matching (dominoes : List Domino) (to_match : Domino) :
    List Domino × List Domino :=
  let ds := dominoes.map (amFlip to_match)
  (ds, ds.filter (fun d => d.matches to_match))

/-- `DominoSet.draw`: remove the tile equal (`Domino.eq`) to the requested one. -/
def removeFirstDeq : List Domino → Domino → List Domino
  | [], _ => []
  | x :: xs, m => if Domino.eq x m then xs else x :: removeFirstDeq xs m

/-- `DominoSet.add` (Python `set.add`): append unless an equal tile is present. -/
def handAdd (h : List Domino) (d : Domino) : List Domino :=
  if h.any (fun x => Domino.eq x d) then h else h ++ [d]

/-- A node of the domino tree (engine/models/domino.py, class TreeNode).
Children are the child tile values, exactly as in the source. -/
structure TreeNode where
  domino : Domino
  children : List Domino
deriving DecidableEq, Repr

/-- `TreeNode.is_complete`: a double holds at most two children, any other tile one. -/
def TreeNode.is_complete (n : TreeNode) : Bool :=
  (n.domino.is_double && decide (n.children.length ≥ 2)) ||
    (!n.domino.is_double && decide (n.children.length ≥ 1))

/-- `TreeNode.add_child`: refuse when the node is complete. -/
def TreeNode.add_child (n : TreeNode) (child : Domino) : Except String TreeNode :=
  if n.is_complete then .error "Cannot add child to complete tree node."
  else .ok { n with children := n.children ++ [child] }

/-- Lookup in the `ends` dict (`leaf in self.ends` / `self.ends[leaf]`):
first entry whose key is equal to the probe under `Domino.eq`. -/
def dictFind : List (Domino × Nat) → Domino → Option Nat
  | [], _ => none
  | (k, v) :: rest, d => if Domino.eq k d then some v else dictFind rest d

/-- Insertion into the `ends` dict (`self.ends[domino] = node`): replace the value
of an equal key (keeping the stored key), else append a new entry. -/
def dictInsert : List (Domino × Nat) → Domino → Nat → List (Domino × Nat)
  | [], d, i => [(d, i)]
  | (k, v) :: rest, d, i =>
    if Domino.eq k d then (k, i) :: rest else (k, v) :: dictInsert rest d i

/-- Deletion from the `ends` dict (`del self.ends[leaf]`): drop the first equal key. -/
def dictDelete : List (Domino × Nat) → Domino → List (Domino × Nat)
  | [], _ => []
  | (k, v) :: rest, d => if Domino.eq k d then rest else (k, v) :: dictDelete rest d

/-- Lookup in the `ends_by_bottom` dict. -/
def ebbFind : List (Nat × List Nat) → Nat → Option (List Nat)
  | [], _ => none
  | (k, l) :: rest, v => if k == v then some l else ebbFind rest v

/-- `ends_by_bottom` update: create the bucket for `v` if missing, then add the
node index to the bucket (`set.add`: no effect when already present). -/
def ebbAdd : List (Nat × List Nat) → Nat → Nat → List (Nat × List Nat)
  | [], v, i => [(v, [i])]
  | (k, l) :: rest, v, i =>
    if k == v then (k, if l.contains i then l else l ++ [i]) :: rest
    else (k, l) :: ebbAdd rest v i

/-- `self.ends_by_bottom[b].remove(node)` followed by deleting the bucket when it
became empty.  `none` models the `KeyError` raised when the bucket or the node
is missing. -/
def ebbRemove : List (Nat × List Nat) → Nat → Nat → Option (List (Nat × List Nat))
  | [], _, _ => none
  | (k, l) :: rest, v, i =>
    if k == v then
      if l.contains i then
        some (if (l.erase i).isEmpty then rest else (k, l.erase i) :: rest)
      else none
    else
      match ebbRemove rest v i with
      | none => none
      | some rest' => some ((k, l) :: rest')

/-- The domino tree (engine/models/domino.py, class DominoTree).  `nodes` is the
arena holding every `TreeNode` ever created for this tree; object references of
the source become indices into it. -/
structure DominoTree where
  ends_by_bottom : List (Nat × List Nat)
  ends : List (Domino × Nat)
  root : Option Nat
  nodes : List TreeNode
deriving DecidableEq, Repr

/-- `DominoTree.__init__`. -/
def DominoTree.empty : DominoTree := ⟨[], [], none, []⟩

/-- Dereference a node index in the arena. -/
def DominoTree.nodeAt (t : DominoTree) (i : Nat) : TreeNode :=
  t.nodes.getD i ⟨⟨0, 0⟩, []⟩

/-- `DominoTree.is_empty`. -/
def DominoTree.is_empty (t : DominoTree) : Bool := t.root.isNone

/-- `DominoTree.playable_ends`: none for an empty tree; every end when no
candidates are given; otherwise the tiles of the `ends_by_bottom` buckets whose
exposed face value occurs on either side of some candidate. -/
def DominoTree.playable_ends (t : DominoTree) (dominoes : List Domino) :
    Option (List Domino) :=
  match t.root with
  | none => none
  | some _ =>
    if dominoes.length == 0 then
      some (t.ends.map Prod.fst)
    else
      let consider_ends :=
        (dominoes.map Domino.top) ++ (dominoes.map Domino.bottom)
      some (((t.ends_by_bottom.filter
          (fun b => consider_ends.contains b.1)).map
          (fun b => b.2.map (fun i => (t.nodeAt i).domino))).flatten)

/-- Orientation correction before an attachment: `if domino.matches_flipped(x):
domino.flip()`. -/
def orient (domino x : Domino) : Domino :=
  if domino.matches_flipped x then domino.flip else domino

/-- `DominoTree.add_to_leaf`: orient the new tile against the requested leaf,
attach it as a child, register the fresh node in both end indexes, and retire
the leaf from them once it reaches capacity.  (The source computes the index
updates before the completion check; they are pure values here, so the result
is identical.) -/
def DominoTree.add_to_leaf (t : DominoTree) (leaf domino : Domino) :
    Except String DominoTree :=
  match dictFind t.ends leaf with
  | none => .error "Provided leaf is not a valid leaf in the tree."
  | some leafIdx =>
    if !((orient domino leaf).matches leaf) then
      .error "Domino does not match desired parent."
    else
      match (t.nodeAt leafIdx).add_child (orient domino leaf) with
      | .error e => .error e
      | .ok leafNode =>
        if leafNode.is_complete then
          match ebbRemove
              (ebbAdd t.ends_by_bottom (orient domino leaf).bottom t.nodes.length)
              leaf.bottom leafIdx with
          | none => .error "KeyError"
          | some ebb' =>
            .ok ⟨ebb',
                 dictDelete (dictInsert t.ends (orient domino leaf) t.nodes.length) leaf,
                 t.root, (t.nodes.set leafIdx leafNode) ++ [⟨orient domino leaf, []⟩]⟩
        else
          .ok ⟨ebbAdd t.ends_by_bottom (orient domino leaf).bottom t.nodes.length,
               dictInsert t.ends (orient domino leaf) t.nodes.length,
               t.root, (t.nodes.set leafIdx leafNode) ++ [⟨orient domino leaf, []⟩]⟩

/-- A train (engine/models/train.py, class Train): a domino tree with an owner
name, the fixed engine seed and the marking flag.  `is_community` models the
`CommunityTrain` subclass, whose `is_marked` is constantly true. -/
structure Train where
  tree : DominoTree
  player_name : String
  engine : Domino
  marked : Bool
  is_community : Bool
deriving DecidableEq, Repr

/-- `Train.__init__`. -/
def Train.init (player_name : String) (engine : Domino) : Train :=
  ⟨DominoTree.empty, player_name, engine, false, false⟩

/-- `CommunityTrain.__init__`. -/
def CommunityTrain.init (engine : Domino) : Train :=
  ⟨DominoTree.empty, COMMUNITY_TRAIN, engine, true, true⟩

/-- `Train.is_marked`, with the `CommunityTrain` override. -/
def Train.is_marked (tr : Train) : Bool := tr.is_community || tr.marked

/-- `Train.set_marked`.  The game only ever calls this on player trains, never
on the community train (whose override raises). -/
def Train.set_marked (tr : Train) : Train := { tr with marked := true }

/-- `Train.set_unmarked`, same caveat as `Train.set_marked`. -/
def Train.set_unmarked (tr : Train) : Train := { tr with marked := false }

/-- `Train.playable_ends`: on an empty tree the sole end is the engine seed,
offered when no candidates were supplied or when some candidate matches the
seed in either orientation; otherwise delegate to the tree (whose result is
`some` since the tree is non-empty). -/
def Train.playable_ends (tr : Train) (dominoes : List Domino) : List Domino :=
  if tr.tree.is_empty then
    if dominoes.length == 0 then [tr.engine]
    else if dominoes.any
        (fun d => d.matches tr.engine || d.matches_flipped tr.engine) then
      [tr.engine]
    else []
  else
    (tr.tree.playable_ends dominoes).getD []

/-- `Train.add_to_end`: starting an empty train on its engine seed installs the
oriented tile as the root and initialises both end indexes; any other request
is delegated to `add_to_leaf`. -/
def Train.add_to_end (tr : Train) (e domino : Domino) : Except String Train :=
  if tr.tree.is_empty && Domino.eq e tr.engine then
    if !((orient domino e).matches e) then
      .error "Domino does not match desired end."
    else
      .ok { tr with
        tree := ⟨[((orient domino e).bottom, [0])], [(orient domino e, 0)], some 0,
                 [⟨orient domino e, []⟩]⟩ }
  else
    match tr.tree.add_to_leaf e domino with
    | .error err => .error err
    | .ok t' => .ok { tr with tree := t' }

deriving instance DecidableEq for Except

/-- Success test for `Except` results. -/
def isOkE {α : Type} (e : Except String α) : Bool :=
  match e with
  | .ok _ => true
  | .error _ => false

/-- The hash of a tile is unchanged by `amFlip`. -/
theorem hsh_amFlip (t d : Domino) : (amFlip t d).hsh = d.hsh := by
  unfold amFlip
  split
  · simp [Domino.hsh, Domino.flip, Nat.min_comm, Nat.max_comm]
  · rfl

/-- A tile actually flipped by `all_matching` matches the probe afterwards. -/
theorem amFlip_matches_of_ne (t d : Domino) (h : amFlip t d ≠ d) :
    (amFlip t d).matches t = true := by
  by_cases hf : d.matches_flipped t = true
  · have hb : d.bottom == t.bottom := by
      simpa [Domino.matches_flipped] using hf
    simp [amFlip, hf, Domino.matches, Domino.flip, hb]
  · exfalso
    apply h
    simp [amFlip, hf]

/-- C10: `all_matching` mutates only the tiles it returns.  The pass keeps the
set's membership (each slot still holds the same unordered tile, witnessed by
the unchanged hash sequence), every tile whose orientation the query changed is
part of the returned matches, and hence every tile outside the result keeps its
orientation. -/
theorem c10_all_matching_frame (hand : List Domino) (t : Domino) :
    ((all_matching hand t).1.map Domino.hsh = hand.map Domino.hsh) ∧
    (∀ d ∈ hand, amFlip t d ≠ d → amFlip t d ∈ (all_matching hand t).2) ∧
    (∀ d ∈ hand, amFlip t d ∉ (all_matching hand t).2 → amFlip t d = d) := by
  have hfst : (all_matching hand t).1 = hand.map (amFlip t) := rfl
  have hsnd : (all_matching hand t).2 =
      (hand.map (amFlip t)).filter (fun x => x.matches t) := rfl
  refine ⟨?_, ?_, ?_⟩
  · rw [hfst, List.map_map]
    exact List.map_congr_left (fun a _ => hsh_amFlip t a)
  · intro d hd hne
    have hm : (amFlip t d).matches t = true := amFlip_matches_of_ne t d hne
    have hmem : amFlip t d ∈ hand.map (amFlip t) := List.mem_map_of_mem _ hd
    rw [hsnd]
    exact List.mem_filter.mpr ⟨hmem, hm⟩
  · intro d hd hnot
    by_contra hne
    apply hnot
    have hm : (amFlip t d).matches t = true := amFlip_matches_of_ne t d hne
    have hmem : amFlip t d ∈ hand.map (amFlip t) := List.mem_map_of_mem _ hd
    rw [hsnd]
    exact List.mem_filter.mpr ⟨hmem, hm⟩

/-- C10 witness: the tile (2,3) is flipped by a query against (5,3) and is
returned among the matches. -/
theorem c10_all_matching_frame_witness :
    amFlip ⟨5, 3⟩ ⟨2, 3⟩ ∈ (all_matching [⟨2, 3⟩] ⟨5, 3⟩).2 :=
  (c10_all_matching_frame [⟨2, 3⟩] ⟨5, 3⟩).2.1 ⟨2, 3⟩ (by decide) (by decide)

/-- C8: equality and hash are invariant under flipping a tile. -/
theorem c8_eq_hash_flip_invariant (t : Domino) :
    Domino.eq t t.flip = true ∧ t.flip.hsh = t.hsh := by
  constructor
  · simp [Domino.eq, Domino.flip]
  · simp [Domino.hsh, Domino.flip, Nat.min_comm, Nat.max_comm]

/-- C2 counterexample: in the two-player configuration the face range is [0,9],
so (9,9) is the maximal double, yet `value` gives it its face sum 18 rather
than the bonus 50; the fixed bonus is instead attached to the (0,0) tile,
which is not the maximal double. -/
theorem c2_value_counterexample :
    get_domino_parameters 2 = .ok (9, 8) ∧
    Domino.value ⟨9, 9⟩ = 18 ∧ Domino.value ⟨9, 9⟩ ≠ 50 ∧
    Domino.value ⟨0, 0⟩ = 50 ∧ Domino.value ⟨0, 0⟩ ≠ 0 + 0 := by
  decide

/-- C2 amended: for every tile of a generated set, `value` returns the face sum
except for the double-blank (0,0), which scores the fixed bonus 50. -/
theorem c2_value_amended (N : Nat) (t : Domino) (_ht : t ∈ generate_dominoes N) :
    (¬(t.top = 0 ∧ t.bottom = 0) → t.value = t.top + t.bottom) ∧
    (t.top = 0 → t.bottom = 0 → t.value = 50) := by
  refine ⟨fun h => ?_, fun h1 h2 => ?_⟩
  · have hb : ¬((t.top == 0 && t.bottom == 0) = true) := by
      simp only [Bool.and_eq_true, beq_iff_eq]
      exact h
    simp [Domino.value, hb]
  · have hb : (t.top == 0 && t.bottom == 0) = true := by simp [h1, h2]
    simp [Domino.value, hb]

/-- C2 amended witness at the tile (0,1) of the double-9 set. -/
theorem c2_value_amended_witness :
    (⟨0, 1⟩ : Domino) ∈ generate_dominoes 9 ∧ Domino.value ⟨0, 1⟩ = 0 + 1 :=
  ⟨by decide, (c2_value_amended 9 ⟨0, 1⟩ (by decide)).1 (by decide)⟩

/-- C7: once a double node holds two children, or a non-double node holds one,
`add_child` fails with the capacity error (and, the embedding being functional,
produces no modified node). -/
theorem c7_child_capacity (n : TreeNode) (c : Domino) :
    (n.domino.is_double = true → n.children.length = 2 →
      n.add_child c = .error "Cannot add child to complete tree node.") ∧
    (n.domino.is_double = false → n.children.length = 1 →
      n.add_child c = .error "Cannot add child to complete tree node.") := by
  constructor
  · intro hd hl
    have hc : n.is_complete = true := by simp [TreeNode.is_complete, hd, hl]
    simp [TreeNode.add_child, hc]
  · intro hd hl
    have hc : n.is_complete = true := by simp [TreeNode.is_complete, hd, hl]
    simp [TreeNode.add_child, hc]

/-- C7 witness: a full double refuses a third child and a full non-double a second. -/
theorem c7_child_capacity_witness :
    TreeNode.add_child ⟨⟨1, 1⟩, [⟨1, 2⟩, ⟨1, 0⟩]⟩ ⟨1, 3⟩ =
      .error "Cannot add child to complete tree node." ∧
    TreeNode.add_child ⟨⟨1, 2⟩, [⟨2, 5⟩]⟩ ⟨1, 3⟩ =
      .error "Cannot add child to complete tree node." :=
  ⟨(c7_child_capacity ⟨⟨1, 1⟩, [⟨1, 2⟩, ⟨1, 0⟩]⟩ ⟨1, 3⟩).1 (by decide) (by decide),
   (c7_child_capacity ⟨⟨1, 2⟩, [⟨2, 5⟩]⟩ ⟨1, 3⟩).2 (by decide) (by decide)⟩

/-- The seeded chain of the fork scenario. -/
def c5_t0 : Train := Train.init "a" ⟨6, 6⟩

/-- First attachment: (6,2) onto the engine seed. -/
def c5_t1 : Except String Train := c5_t0.add_to_end ⟨6, 6⟩ ⟨6, 2⟩

/-- Second attachment: the double (2,2) onto the end with exposed face 2. -/
def c5_t2 : Except String Train :=
  match c5_t1 with
  | .ok t => t.add_to_end ⟨6, 2⟩ ⟨2, 2⟩
  | .error e => .error e

/-- The chain after both attachments. -/
def c5_tr2 : Train :=
  match c5_t2 with
  | .ok t => t
  | .error _ => Train.init "" ⟨0, 0⟩

/-- Third and fourth attachments, both onto the double (2,2). -/
def c5_t3 : Except String Train := c5_tr2.add_to_end ⟨2, 2⟩ ⟨2, 5⟩

/-- Fourth attachment. -/
def c5_t4 : Except String Train :=
  match c5_t3 with
  | .ok t => t.add_to_end ⟨2, 2⟩ ⟨2, 3⟩
  | .error e => .error e

/-- A fifth attachment onto (2,2), beyond the double's capacity. -/
def c5_t5 : Except String Train :=
  match c5_t4 with
  | .ok t => t.add_to_end ⟨2, 2⟩ ⟨2, 4⟩
  | .error e => .error e

/-- C5: from the empty chain seeded on (6,6), attaching (6,2) and then the
double (2,2) both succeed; afterwards the open end set of the tree is exactly
the tile (2,2) itself — a childless double with exposed face 2 — and it offers
two independent attachment points: two further tiles can be attached to it and
a third attempt fails because the node is then at capacity. -/
theorem c5_fork_scenario :
    isOkE c5_t1 = true ∧ isOkE c5_t2 = true ∧
    c5_tr2.tree.ends.map Prod.fst = [⟨2, 2⟩] ∧
    c5_tr2.tree.ends_by_bottom = [(2, [1])] ∧
    c5_tr2.tree.nodeAt 1 = ⟨⟨2, 2⟩, []⟩ ∧
    (⟨2, 2⟩ : Domino).is_double = true ∧
    c5_tr2.playable_ends [] = [⟨2, 2⟩] ∧
    isOkE c5_t3 = true ∧ isOkE c5_t4 = true ∧
    c5_t5 = .error "Provided leaf is not a valid leaf in the tree." := by
  decide

/-- No duplicate node indices. -/
def nodupB : List Nat → Bool
  | [] => true
  | x :: xs => !(xs.contains x) && nodupB xs

/-- Pairwise inequality of dict keys under `Domino.eq`. -/
def pairwiseNeqB : List Domino → Bool
  | [] => true
  | d :: ds => ds.all (fun k => !(Domino.eq d k)) && pairwiseNeqB ds

/-- Whether some `ends` entry points at node `i`. -/
def endsHasIdx (ends : List (Domino × Nat)) (i : Nat) : Bool :=
  ends.any (fun e => e.2 == i)

/-- Coherence of the two derived end indexes of a tree, as claimed:
the `ends` dict holds exactly the open (not-at-capacity) nodes, keyed by the
node's own tile; `ends_by_bottom` maps each face value to exactly the open
nodes exposing it, with no empty bucket kept around. -/
def CoherentB (t : DominoTree) : Bool :=
  t.ends.all (fun e =>
      decide (e.2 < t.nodes.length) &&
      ((t.nodeAt e.2).domino == e.1) &&
      !(t.nodeAt e.2).is_complete) &&
  (List.range t.nodes.length).all
      (fun i => (t.nodeAt i).is_complete || endsHasIdx t.ends i) &&
  nodupB (t.ends.map Prod.snd) &&
  pairwiseNeqB (t.ends.map Prod.fst) &&
  t.ends_by_bottom.all (fun b =>
      !(b.2.isEmpty) && nodupB b.2 &&
      b.2.all (fun i =>
        endsHasIdx t.ends i && ((t.nodeAt i).domino.bottom == b.1))) &&
  nodupB (t.ends_by_bottom.map Prod.fst) &&
  t.ends.all (fun e =>
      match ebbFind t.ends_by_bottom e.1.bottom with
      | some l => l.contains e.2
      | none => false)

/-- Seeded chain of the duplicate-tile counterexample. -/
def c9_s0 : Train := Train.init "a" ⟨6, 6⟩

/-- First attachment of the counterexample: (6,2) onto the seed. -/
def c9_s1 : Except String Train := c9_s0.add_to_end ⟨6, 6⟩ ⟨6, 2⟩

/-- Second attachment: the tile (2,6) — equal under `Domino.eq` to the placed
(6,2) — onto the end (6,2). -/
def c9_s2 : Except String Train :=
  match c9_s1 with
  | .ok t => t.add_to_end ⟨6, 2⟩ ⟨2, 6⟩
  | .error e => .error e

/-- The chain after the two successful attachments. -/
def c9_tr2 : Train :=
  match c9_s2 with
  | .ok t => t
  | .error _ => Train.init "" ⟨0, 0⟩

/-- C9 counterexample: two successful `add_to_end` operations — the second one
adding a tile that is `Domino.eq`-equal to a tile already placed — leave the
`ends` dict empty even though node 1 is open (the dict-key collision overwrote
the entry for node 0, which was then deleted wholesale when node 0 filled up),
so the end index is not coherent. -/
theorem c9_ends_incoherence_counterexample :
    isOkE c9_s1 = true ∧ isOkE c9_s2 = true ∧
    Domino.eq ⟨6, 2⟩ ⟨2, 6⟩ = true ∧
    c9_tr2.tree.ends = [] ∧
    (c9_tr2.tree.nodeAt 1 = ⟨⟨2, 6⟩, []⟩ ∧
      (c9_tr2.tree.nodeAt 1).is_complete = false ∧
      c9_tr2.tree.nodes.length = 2) ∧
    c9_tr2.tree.ends_by_bottom = [(6, [1])] ∧
    CoherentB c9_tr2.tree = false := by
  decide

/-- Chains reachable through `Train.add_to_end` in which every attached tile is
distinct (under the orientation-invariant tile equality) from every tile
already placed in the tree — the physical-uniqueness discipline of the game. -/
inductive ReachableTrain : Train → Prop where
  | init (name : String) (engine : Domino) : ReachableTrain (Train.init name engine)
  | step (tr tr' : Train) (e d : Domino) :
      ReachableTrain tr →
      (∀ n ∈ tr.tree.nodes, Domino.eq n.domino d = false) →
      tr.add_to_end e d = .ok tr' →
      ReachableTrain tr'

/-- Reflexivity of the tile equality. -/
theorem deq_refl (a : Domino) : Domino.eq a a = true := by
  simp [Domino.eq]

/-- Symmetry of the tile equality. -/
theorem deq_symm {a b : Domino} (h : Domino.eq a b = true) : Domino.eq b a = true := by
  simp [Domino.eq] at *
  omega

/-- Transitivity of the tile equality. -/
theorem deq_trans {a b c : Domino} (h1 : Domino.eq a b = true)
    (h2 : Domino.eq b c = true) : Domino.eq a c = true := by
  simp [Domino.eq] at *
  omega

/-- Flipping the right operand does not change the tile equality. -/
theorem deq_flip_right (a b : Domino) :
    Domino.eq a (Domino.flip b) = true ↔ Domino.eq a b = true := by
  simp [Domino.eq, Domino.flip]
  omega

/-- A childless node is never complete. -/
theorem fresh_node_open (x : Domino) : (TreeNode.mk x []).is_complete = false := by
  simp [TreeNode.is_complete]

/-- Elimination for a successful `add_child`. -/
theorem add_child_ok_elim {n : TreeNode} {c : Domino} {n' : TreeNode}
    (h : n.add_child c = .ok n') :
    n.is_complete = false ∧ n' = ⟨n.domino, n.children ++ [c]⟩ := by
  unfold TreeNode.add_child at h
  split at h
  · exact absurd h (by simp)
  · rename_i hnc
    refine ⟨by simpa using hnc, ?_⟩
    cases h
    rfl

/-- A successful `dictFind` splits the dict at the first matching key. -/
theorem dictFind_split {ends : List (Domino × Nat)} {x : Domino} {i : Nat}
    (h : dictFind ends x = some i) :
    ∃ P k Q, ends = P ++ (k, i) :: Q ∧ Domino.eq k x = true ∧
      ∀ e ∈ P, Domino.eq e.1 x = false := by
  induction ends with
  | nil => simp [dictFind] at h
  | cons hd tl ih =>
    obtain ⟨k0, v0⟩ := hd
    by_cases hk : Domino.eq k0 x = true
    · simp [dictFind, hk] at h
      exact ⟨[], k0, tl, by simp [h], hk, by simp⟩
    · simp only [dictFind] at h
      rw [if_neg (by simpa using hk)] at h
      obtain ⟨P, k, Q, hsplit, hkx, hP⟩ := ih h
      refine ⟨(k0, v0) :: P, k, Q, by simp [hsplit], hkx, ?_⟩
      intro e he
      rcases List.mem_cons.mp he with rfl | he'
      · simpa using hk
      · exact hP e he'

/-- When no key matches, `dictInsert` appends. -/
theorem dictInsert_append {ends : List (Domino × Nat)} {d : Domino} {i : Nat}
    (h : ∀ e ∈ ends, Domino.eq e.1 d = false) :
    dictInsert ends d i = ends ++ [(d, i)] := by
  induction ends with
  | nil => rfl
  | cons hd tl ih =>
    obtain ⟨k0, v0⟩ := hd
    have hk : Domino.eq k0 d = false := h (k0, v0) (by simp)
    simp only [dictInsert, hk]
    simp only [Bool.false_eq_true, if_false, List.cons_append, List.cons.injEq, true_and]
    exact ih (fun e he => h e (List.mem_cons_of_mem _ he))

/-- `dictDelete` on a dict split at the first matching key drops that entry. -/
theorem dictDelete_of_split (P : List (Domino × Nat)) (k : Domino) (i : Nat)
    (Q : List (Domino × Nat)) (x : Domino) (hk : Domino.eq k x = true)
    (hP : ∀ e ∈ P, Domino.eq e.1 x = false) :
    dictDelete (P ++ (k, i) :: Q) x = P ++ Q := by
  induction P with
  | nil => simp [dictDelete, hk]
  | cons hd tl ih =>
    obtain ⟨k0, v0⟩ := hd
    have hk0 : Domino.eq k0 x = false := hP (k0, v0) (by simp)
    simp only [List.cons_append, dictDelete, hk0]
    simp only [Bool.false_eq_true, if_false, List.cons.injEq, true_and]
    exact ih (fun e he => hP e (List.mem_cons_of_mem _ he))

/-- A successful `ebbFind` splits the dict at the first matching key. -/
theorem ebbFind_split {ebb : List (Nat × List Nat)} {w : Nat} {L : List Nat}
    (h : ebbFind ebb w = some L) :
    ∃ P Q, ebb = P ++ (w, L) :: Q ∧ ∀ b ∈ P, b.1 ≠ w := by
  induction ebb with
  | nil => simp [ebbFind] at h
  | cons hd tl ih =>
    obtain ⟨k0, l0⟩ := hd
    by_cases hk : k0 = w
    · subst hk
      simp [ebbFind] at h
      exact ⟨[], tl, by simp [h], by simp⟩
    · simp only [ebbFind] at h
      rw [if_neg (by simpa using hk)] at h
      obtain ⟨P, Q, hsplit, hP⟩ := ih h
      refine ⟨(k0, l0) :: P, Q, by simp [hsplit], ?_⟩
      intro b hb
      rcases List.mem_cons.mp hb with rfl | hb'
      · simpa using hk
      · exact hP b hb'

/-- When the key is absent, `ebbAdd` appends a fresh singleton bucket. -/
theorem ebbAdd_not_mem {ebb : List (Nat × List Nat)} {v i : Nat}
    (h : ∀ b ∈ ebb, b.1 ≠ v) :
    ebbAdd ebb v i = ebb ++ [(v, [i])] := by
  induction ebb with
  | nil => rfl
  | cons hd tl ih =>
    obtain ⟨k0, l0⟩ := hd
    have hk : (k0 == v) = false := by
      simpa using h (k0, l0) (by simp)
    simp only [ebbAdd, hk]
    simp only [Bool.false_eq_true, if_false, List.cons_append, List.cons.injEq, true_and]
    exact ih (fun b hb => h b (List.mem_cons_of_mem _ hb))

/-- `ebbAdd` on a dict split at the first matching key updates that bucket. -/
theorem ebbAdd_split (P : List (Nat × List Nat)) (v : Nat) (L : List Nat)
    (Q : List (Nat × List Nat)) (i : Nat) (hP : ∀ b ∈ P, b.1 ≠ v) :
    ebbAdd (P ++ (v, L) :: Q) v i =
      P ++ (v, if L.contains i then L else L ++ [i]) :: Q := by
  induction P with
  | nil => simp [ebbAdd]
  | cons hd tl ih =>
    obtain ⟨k0, l0⟩ := hd
    have hk : (k0 == v) = false := by
      simpa using hP (k0, l0) (by simp)
    simp only [List.cons_append, ebbAdd, hk]
    simp only [Bool.false_eq_true, if_false, List.cons.injEq, true_and]
    exact ih (fun b hb => hP b (List.mem_cons_of_mem _ hb))

/-- Elimination for a successful `ebbRemove`: the dict splits at the first
bucket for the key, that bucket contains the removed index, and the result
either drops the bucket (when it became empty) or shrinks it in place. -/
theorem ebbRemove_elim {ebb : List (Nat × List Nat)} {w i : Nat}
    {ebb' : List (Nat × List Nat)} (h : ebbRemove ebb w i = some ebb') :
    ∃ P L Q, ebb = P ++ (w, L) :: Q ∧ (∀ b ∈ P, b.1 ≠ w) ∧ i ∈ L ∧
      ebb' = (if (L.erase i).isEmpty then P ++ Q
              else P ++ (w, L.erase i) :: Q) := by
  induction ebb generalizing ebb' with
  | nil => simp [ebbRemove] at h
  | cons hd tl ih =>
    obtain ⟨k0, l0⟩ := hd
    by_cases hk : k0 = w
    · subst hk
      simp only [ebbRemove] at h
      rw [if_pos (by simp : ((k0 : Nat) == k0) = true)] at h
      by_cases hc : l0.contains i = true
      · rw [if_pos hc] at h
        refine ⟨[], l0, tl, by simp, by simp, by simpa using hc, ?_⟩
        injection h with h
        rw [← h]
        by_cases he : (l0.erase i).isEmpty = true
        · simp [he]
        · simp [he]
      · rw [if_neg hc] at h
        exact absurd h (by simp)
    · simp only [ebbRemove] at h
      rw [if_neg (by simpa using hk)] at h
      cases hrec : ebbRemove tl w i with
      | none => rw [hrec] at h; exact absurd h (by simp)
      | some tl' =>
        rw [hrec] at h
        obtain ⟨P, L, Q, hsplit, hP, hiL, hres⟩ := ih hrec
        cases h
        refine ⟨(k0, l0) :: P, L, Q, by simp [hsplit], ?_, hiL, ?_⟩
        · intro b hb
          rcases List.mem_cons.mp hb with rfl | hb'
          · simpa using hk
          · exact hP b hb'
        · by_cases he : (L.erase i).isEmpty
          · simp only [he, if_true] at hres ⊢
            simp [hres]
          · simp only [he, Bool.false_eq_true, if_false] at hres ⊢
            simp [hres]

/-- `getD` on the left part of an append. -/
theorem getD_append_lt {α : Type} (l l' : List α) (j : Nat) (d : α)
    (h : j < l.length) : (l ++ l').getD j d = l.getD j d := by
  induction l generalizing j with
  | nil => simp at h
  | cons x xs ih =>
    cases j with
    | zero => rfl
    | succ j' => exact ih j' (by simpa using h)

/-- `getD` at the boundary of an append. -/
theorem getD_append_len {α : Type} (l l' : List α) (d : α) :
    (l ++ l').getD l.length d = l'.getD 0 d := by
  induction l with
  | nil => rfl
  | cons x xs ih => simpa using ih

/-- `getD` after `set` at the written position. -/
theorem getD_set_self {α : Type} (l : List α) (i : Nat) (a : α) (d : α)
    (h : i < l.length) : (l.set i a).getD i d = a := by
  induction l generalizing i with
  | nil => simp at h
  | cons x xs ih =>
    cases i with
    | zero => rfl
    | succ i' => exact ih i' (by simpa using h)

/-- `getD` after `set` at another position. -/
theorem getD_set_ne {α : Type} (l : List α) (i j : Nat) (a : α) (d : α)
    (h : i ≠ j) : (l.set i a).getD j d = l.getD j d := by
  induction l generalizing i j with
  | nil => simp
  | cons x xs ih =>
    cases i with
    | zero =>
      cases j with
      | zero => exact absurd rfl h
      | succ j' => rfl
    | succ i' =>
      cases j with
      | zero => rfl
      | succ j' => exact ih i' j' (fun hc => h (by rw [hc]))

/-- An in-range `getD` is a member. -/
theorem getD_mem {α : Type} (l : List α) (i : Nat) (d : α) (h : i < l.length) :
    l.getD i d ∈ l := by
  induction l generalizing i with
  | nil => simp at h
  | cons x xs ih =>
    cases i with
    | zero => simp
    | succ i' => exact List.mem_cons_of_mem _ (ih i' (by simpa using h))

/-- Boolean nodup check agrees with `List.Nodup`. -/
theorem nodupB_iff (l : List Nat) : nodupB l = true ↔ l.Nodup := by
  induction l with
  | nil => simp [nodupB]
  | cons x xs ih => simp [nodupB, ih, List.nodup_cons]

/-- Boolean pairwise-distinct-keys check agrees with `List.Pairwise`. -/
theorem pairwiseNeqB_iff (l : List Domino) :
    pairwiseNeqB l = true ↔ l.Pairwise (fun a b => Domino.eq a b = false) := by
  induction l with
  | nil => simp [pairwiseNeqB]
  | cons x xs ih =>
    simp [pairwiseNeqB, ih, List.pairwise_cons, Bool.not_eq_true']

/-- Boolean id-membership check agrees with the existential. -/
theorem endsHasIdx_iff (ends : List (Domino × Nat)) (i : Nat) :
    endsHasIdx ends i = true ↔ ∃ e ∈ ends, e.2 = i := by
  simp [endsHasIdx, List.any_eq_true]

/-- Propositional form of the end-index coherence invariant. -/
structure Coherent (t : DominoTree) : Prop where
  ends_valid : ∀ e ∈ t.ends, e.2 < t.nodes.length ∧
    (t.nodeAt e.2).domino = e.1 ∧ (t.nodeAt e.2).is_complete = false
  open_in_ends : ∀ i, i < t.nodes.length → (t.nodeAt i).is_complete = false →
    ∃ e ∈ t.ends, e.2 = i
  ids_nodup : (t.ends.map Prod.snd).Nodup
  keys_neq : (t.ends.map Prod.fst).Pairwise (fun a b => Domino.eq a b = false)
  ebb_valid : ∀ b ∈ t.ends_by_bottom, b.2 ≠ [] ∧ b.2.Nodup ∧
    ∀ i ∈ b.2, (∃ e ∈ t.ends, e.2 = i) ∧ (t.nodeAt i).domino.bottom = b.1
  ebb_keys_nodup : (t.ends_by_bottom.map Prod.fst).Nodup
  ends_in_ebb : ∀ e ∈ t.ends, ∃ l, ebbFind t.ends_by_bottom e.1.bottom = some l ∧
    e.2 ∈ l

/-- The Boolean and propositional coherence checks agree. -/
theorem coherentB_iff (t : DominoTree) : CoherentB t = true ↔ Coherent t := by
  constructor
  · intro h
    simp only [CoherentB, Bool.and_eq_true] at h
    obtain ⟨⟨⟨⟨⟨⟨h1, h2⟩, h3⟩, h4⟩, h5⟩, h6⟩, h7⟩ := h
    simp only [List.all_eq_true, Bool.and_eq_true, Bool.or_eq_true, decide_eq_true_eq,
      beq_iff_eq, Bool.not_eq_true'] at h1 h2 h5 h7
    refine ⟨?_, ?_, (nodupB_iff _).mp h3, (pairwiseNeqB_iff _).mp h4, ?_, (nodupB_iff _).mp h6, ?_⟩
    · exact fun e he => ⟨(h1 e he).1.1, (h1 e he).1.2, (h1 e he).2⟩
    · intro i hi hopen
      have := h2 i (by simpa using List.mem_range.mpr hi)
      rcases this with hcomp | hidx
      · rw [hopen] at hcomp; exact absurd hcomp (by simp)
      · exact (endsHasIdx_iff _ _).mp hidx
    · intro b hb
      obtain ⟨⟨hne, hnd⟩, hmem⟩ := h5 b hb
      refine ⟨by simpa using hne, (nodupB_iff _).mp hnd, ?_⟩
      intro i hib
      obtain ⟨hin, hbot⟩ := hmem i hib
      exact ⟨(endsHasIdx_iff _ _).mp hin, hbot⟩
    · intro e he
      have := h7 e he
      cases hfind : ebbFind t.ends_by_bottom e.1.bottom with
      | none => rw [hfind] at this; cases this
      | some l =>
        rw [hfind] at this
        exact ⟨l, rfl, by simpa using this⟩
  · intro h
    simp only [CoherentB, Bool.and_eq_true]
    refine ⟨⟨⟨⟨⟨⟨?_, ?_⟩, ?_⟩, ?_⟩, ?_⟩, ?_⟩, ?_⟩
    · simp only [List.all_eq_true, Bool.and_eq_true, decide_eq_true_eq, beq_iff_eq,
        Bool.not_eq_true']
      exact fun e he => ⟨⟨(h.ends_valid e he).1, (h.ends_valid e he).2.1⟩,
        (h.ends_valid e he).2.2⟩
    · simp only [List.all_eq_true, Bool.or_eq_true]
      intro i hi
      have hi' : i < t.nodes.length := List.mem_range.mp hi
      by_cases hc : (t.nodeAt i).is_complete = true
      · exact Or.inl hc
      · exact Or.inr ((endsHasIdx_iff _ _).mpr
          (h.open_in_ends i hi' (Bool.not_eq_true _ ▸ by simpa using hc)))
    · exact (nodupB_iff _).mpr h.ids_nodup
    · exact (pairwiseNeqB_iff _).mpr h.keys_neq
    · simp only [List.all_eq_true, Bool.and_eq_true, beq_iff_eq, Bool.not_eq_true']
      intro b hb
      obtain ⟨hne, hnd, hmem⟩ := h.ebb_valid b hb
      refine ⟨⟨by simpa using hne, (nodupB_iff _).mpr hnd⟩, ?_⟩
      intro i hib
      exact ⟨(endsHasIdx_iff _ _).mpr (hmem i hib).1, (hmem i hib).2⟩
    · exact (nodupB_iff _).mpr h.ebb_keys_nodup
    · simp only [List.all_eq_true]
      intro e he
      obtain ⟨l, hfind, hmem⟩ := h.ends_in_ebb e he
      rw [hfind]
      simpa using hmem

/-- Elimination for a successful `add_to_leaf`: the leaf was found in the ends
dict, the oriented tile matches it, the child attachment succeeded, and the
resulting tree is the reindexed one (with the leaf retired from both indexes
when it became complete). -/
theorem add_to_leaf_ok_elim {t : DominoTree} {leaf d0 : Domino} {t' : DominoTree}
    (h : t.add_to_leaf leaf d0 = .ok t') :
    ∃ leafIdx leafNode,
      dictFind t.ends leaf = some leafIdx ∧
      (orient d0 leaf).matches leaf = true ∧
      (t.nodeAt leafIdx).add_child (orient d0 leaf) = .ok leafNode ∧
      ((leafNode.is_complete = false ∧
          t' = ⟨ebbAdd t.ends_by_bottom (orient d0 leaf).bottom t.nodes.length,
                dictInsert t.ends (orient d0 leaf) t.nodes.length, t.root,
                (t.nodes.set leafIdx leafNode) ++ [⟨orient d0 leaf, []⟩]⟩) ∨
        (leafNode.is_complete = true ∧ ∃ ebb',
          ebbRemove (ebbAdd t.ends_by_bottom (orient d0 leaf).bottom t.nodes.length)
              leaf.bottom leafIdx = some ebb' ∧
          t' = ⟨ebb',
                dictDelete (dictInsert t.ends (orient d0 leaf) t.nodes.length) leaf,
                t.root, (t.nodes.set leafIdx leafNode) ++ [⟨orient d0 leaf, []⟩]⟩)) := by
  unfold DominoTree.add_to_leaf at h
  split at h
  · exact absurd h (by simp)
  · rename_i leafIdx hfind
    split at h
    · exact absurd h (by simp)
    · rename_i hmatch
      split at h
      · exact absurd h (by simp)
      · rename_i leafNode hadd
        split at h
        · rename_i hcomp
          split at h
          · exact absurd h (by simp)
          · rename_i ebb' hrem
            injection h with h
            exact ⟨leafIdx, leafNode, hfind, by simpa using hmatch, hadd,
              Or.inr ⟨hcomp, ebb', hrem, h.symm⟩⟩
        · rename_i hcomp
          injection h with h
          exact ⟨leafIdx, leafNode, hfind, by simpa using hmatch, hadd,
            Or.inl ⟨by simpa using hcomp, h.symm⟩⟩

/-- `ebbFind` skips a prefix with no matching key. -/
theorem ebbFind_skip {P : List (Nat × List Nat)} {w : Nat}
    (hP : ∀ b ∈ P, b.1 ≠ w) (R : List (Nat × List Nat)) :
    ebbFind (P ++ R) w = ebbFind R w := by
  induction P with
  | nil => rfl
  | cons hd tl ih =>
    obtain ⟨k0, l0⟩ := hd
    have hk : (k0 == w) = false := by simpa using hP (k0, l0) (by simp)
    simp only [List.cons_append, ebbFind, hk]
    simp only [Bool.false_eq_true, if_false]
    exact ih (fun b hb => hP b (List.mem_cons_of_mem _ hb))

/-- `ebbFind` at the head bucket. -/
theorem ebbFind_cons_self (w : Nat) (L : List Nat) (Q : List (Nat × List Nat)) :
    ebbFind ((w, L) :: Q) w = some L := by
  simp [ebbFind]

/-- `ebbFind` ignores a middle bucket with a different key. -/
theorem ebbFind_mid_ne {v w : Nat} (hne : v ≠ w) (P : List (Nat × List Nat))
    (X : List Nat) (Q : List (Nat × List Nat)) :
    ebbFind (P ++ (v, X) :: Q) w = ebbFind (P ++ Q) w := by
  induction P with
  | nil =>
    have hk : (v == w) = false := by simpa using hne
    simp [ebbFind, hk]
  | cons hd tl ih =>
    obtain ⟨k0, l0⟩ := hd
    by_cases hk : k0 = w
    · subst hk
      simp [ebbFind]
    · have hk' : (k0 == w) = false := by simpa using hk
      simp only [List.cons_append, ebbFind, hk']
      simp only [Bool.false_eq_true, if_false]
      exact ih

/-- A hit in the prefix survives appending. -/
theorem ebbFind_append_some {P : List (Nat × List Nat)} {w : Nat} {l : List Nat}
    (h : ebbFind P w = some l) (R : List (Nat × List Nat)) :
    ebbFind (P ++ R) w = some l := by
  induction P with
  | nil => simp [ebbFind] at h
  | cons hd tl ih =>
    obtain ⟨k0, l0⟩ := hd
    by_cases hk : k0 = w
    · subst hk
      simp [ebbFind] at h ⊢
      exact h
    · have hk' : (k0 == w) = false := by simpa using hk
      simp only [ebbFind, hk'] at h
      simp only [Bool.false_eq_true, if_false] at h
      simp only [List.cons_append, ebbFind, hk']
      simp only [Bool.false_eq_true, if_false]
      exact ih h

/-- `ebbFind` misses exactly when no key matches. -/
theorem ebbFind_none_iff (P : List (Nat × List Nat)) (w : Nat) :
    ebbFind P w = none ↔ ∀ b ∈ P, b.1 ≠ w := by
  induction P with
  | nil => simp [ebbFind]
  | cons hd tl ih =>
    obtain ⟨k0, l0⟩ := hd
    by_cases hk : k0 = w
    · subst hk
      simp [ebbFind]
    · have hk' : (k0 == w) = false := by simpa using hk
      simp only [ebbFind, hk']
      simp only [Bool.false_eq_true, if_false, ih]
      constructor
      · intro hall b hb
        rcases List.mem_cons.mp hb with rfl | hb'
        · simpa using hk
        · exact hall b hb'
      · intro hall b hb
        exact hall b (List.mem_cons_of_mem _ hb)

/-- In a dict whose values are pairwise distinct, entries are determined by
their value component. -/
theorem nodup_snd_inj {l : List (Domino × Nat)}
    (h : (l.map Prod.snd).Nodup) :
    ∀ a ∈ l, ∀ b ∈ l, a.2 = b.2 → a = b := by
  induction l with
  | nil => simp
  | cons x xs ih =>
    simp only [List.map_cons, List.nodup_cons] at h
    intro a ha b hb hab
    rcases List.mem_cons.mp ha with rfl | ha' <;>
      rcases List.mem_cons.mp hb with rfl | hb'
    · rfl
    · exact absurd (hab ▸ List.mem_map_of_mem Prod.snd hb') h.1
    · exact absurd (hab ▸ List.mem_map_of_mem Prod.snd ha') (by
        intro hc
        exact h.1 (by simpa [hab] using hc))
    · exact ih h.2 a ha' b hb' hab

/-- Successful `add_to_leaf` preserves coherence of the end indexes, provided
the attached tile is distinct (under `Domino.eq`) from every tile already
placed in the tree. -/
theorem add_to_leaf_coherent {t : DominoTree} {leaf d0 : Domino} {t' : DominoTree}
    (hc : Coherent t)
    (hdist : ∀ n ∈ t.nodes, Domino.eq n.domino d0 = false)
    (h : t.add_to_leaf leaf d0 = .ok t') : Coherent t' := by
  obtain ⟨leafIdx, leafNode, hfind, _hm, hadd, hcase⟩ := add_to_leaf_ok_elim h
  set d := orient d0 leaf with hddef
  set N := t.nodes.length with hNdef
  set nodes2 := (t.nodes.set leafIdx leafNode) ++ [(⟨d, []⟩ : TreeNode)] with hnodes2
  obtain ⟨P, k, Q, hsplit, hkleaf, hPleaf⟩ := dictFind_split hfind
  have hkmem : (k, leafIdx) ∈ t.ends := by rw [hsplit]; simp
  obtain ⟨hlt, hkdom, hopen⟩ := hc.ends_valid (k, leafIdx) hkmem
  obtain ⟨_hnc, hnodeEq⟩ := add_child_ok_elim hadd
  have hLdom : leafNode.domino = k := by rw [hnodeEq]; exact hkdom
  have hd' : ∀ n ∈ t.nodes, Domino.eq n.domino d = false := by
    intro n hn
    rw [hddef]
    unfold orient
    split
    · cases hq : Domino.eq n.domino d0.flip with
      | false => rfl
      | true =>
        have hq' := (deq_flip_right n.domino d0).mp hq
        rw [hdist n hn] at hq'
        exact absurd hq' (by simp)
    · exact hdist n hn
  have hkeys : ∀ e ∈ t.ends, Domino.eq e.1 d = false := by
    intro e he
    obtain ⟨he1, he2, _⟩ := hc.ends_valid e he
    have hmem : t.nodeAt e.2 ∈ t.nodes := getD_mem _ _ _ he1
    have hx := hd' (t.nodeAt e.2) hmem
    rw [he2] at hx
    exact hx
  have hins : dictInsert t.ends d N = t.ends ++ [(d, N)] := dictInsert_append hkeys
  have hlen2 : nodes2.length = N + 1 := by
    rw [hnodes2]
    simp [List.length_set]
  have hAtNew : nodes2.getD N ⟨⟨0, 0⟩, []⟩ = ⟨d, []⟩ := by
    rw [hnodes2]
    have hNs : N = (t.nodes.set leafIdx leafNode).length := by
      simp [List.length_set, hNdef]
    rw [hNs, getD_append_len]
    rfl
  have hAtLeaf : nodes2.getD leafIdx ⟨⟨0, 0⟩, []⟩ = leafNode := by
    rw [hnodes2, getD_append_lt _ _ _ _ (by rw [List.length_set]; exact hlt)]
    exact getD_set_self _ _ _ _ hlt
  have hAtOld : ∀ j, j < N → j ≠ leafIdx →
      nodes2.getD j ⟨⟨0, 0⟩, []⟩ = t.nodes.getD j ⟨⟨0, 0⟩, []⟩ := by
    intro j hj hne
    rw [hnodes2, getD_append_lt _ _ _ _ (by rw [List.length_set]; exact hj)]
    exact getD_set_ne _ _ _ _ _ (fun hcc => hne hcc.symm)
  have hdomAt : ∀ j, j < N →
      (nodes2.getD j ⟨⟨0, 0⟩, []⟩).domino = (t.nodes.getD j ⟨⟨0, 0⟩, []⟩).domino := by
    intro j hj
    by_cases hje : j = leafIdx
    · subst hje
      rw [hAtLeaf, hLdom]
      exact hkdom.symm
    · rw [hAtOld j hj hje]
  have hidlt : ∀ e ∈ t.ends, e.2 < N := fun e he => (hc.ends_valid e he).1
  have hidne : ∀ e ∈ t.ends, e.2 ≠ N := fun e he => Nat.ne_of_lt (hidlt e he)
  have hshape :
      (∃ P2 L Q2, t.ends_by_bottom = P2 ++ (d.bottom, L) :: Q2 ∧
        (∀ b ∈ P2, b.1 ≠ d.bottom) ∧
        ebbAdd t.ends_by_bottom d.bottom N = P2 ++ (d.bottom, L ++ [N]) :: Q2) ∨
      ((∀ b ∈ t.ends_by_bottom, b.1 ≠ d.bottom) ∧
        ebbAdd t.ends_by_bottom d.bottom N = t.ends_by_bottom ++ [(d.bottom, [N])]) := by
    cases hfind2 : ebbFind t.ends_by_bottom d.bottom with
    | none =>
      right
      have hall := (ebbFind_none_iff _ _).mp hfind2
      exact ⟨hall, ebbAdd_not_mem hall⟩
    | some L =>
      left
      obtain ⟨P2, Q2, hsp, hP2⟩ := ebbFind_split hfind2
      have hLcont : L.contains N = false := by
        cases hcont : L.contains N with
        | false => rfl
        | true =>
          have hNL : N ∈ L := by simpa using hcont
          have hb : (d.bottom, L) ∈ t.ends_by_bottom := by rw [hsp]; simp
          obtain ⟨_, _, hmem⟩ := hc.ebb_valid _ hb
          obtain ⟨⟨e, he, hei⟩, _⟩ := hmem N hNL
          exact absurd hei (hidne e he)
      refine ⟨P2, L, Q2, hsp, hP2, ?_⟩
      rw [hsp, ebbAdd_split _ _ _ _ _ hP2, hLcont]
      simp
  have hKeys1 : ((ebbAdd t.ends_by_bottom d.bottom N).map Prod.fst).Nodup := by
    rcases hshape with ⟨P2, L, Q2, hsp, hP2, hres⟩ | ⟨hall, hres⟩
    · rw [hres]
      have hnd := hc.ebb_keys_nodup
      rw [hsp] at hnd
      simpa using hnd
    · rw [hres, List.map_append]
      refine List.Nodup.append hc.ebb_keys_nodup (by simp) ?_
      intro x hx hx2
      simp at hx2
      subst hx2
      obtain ⟨b, hb, hbk⟩ := List.mem_map.mp hx
      exact hall b hb hbk
  have hBucket : ∀ b ∈ ebbAdd t.ends_by_bottom d.bottom N, b.2 ≠ [] ∧ b.2.Nodup ∧
      ∀ i ∈ b.2, (i = N ∧ b.1 = d.bottom) ∨
        ((∃ e ∈ t.ends, e.2 = i) ∧ (t.nodeAt i).domino.bottom = b.1) := by
    intro b hb
    rcases hshape with ⟨P2, L, Q2, hsp, hP2, hres⟩ | ⟨hall, hres⟩
    · rw [hres] at hb
      rcases List.mem_append.mp hb with hbP | hbm
      · have hbo : b ∈ t.ends_by_bottom := by
          rw [hsp]; exact List.mem_append_left _ hbP
        obtain ⟨h1, h2, h3⟩ := hc.ebb_valid b hbo
        exact ⟨h1, h2, fun i hi => Or.inr (h3 i hi)⟩
      · rcases List.mem_cons.mp hbm with hbeq | hbQ
        · subst hbeq
          have hbo : (d.bottom, L) ∈ t.ends_by_bottom := by rw [hsp]; simp
          obtain ⟨_, h2, h3⟩ := hc.ebb_valid _ hbo
          have hNL : N ∉ L := by
            intro hNL
            obtain ⟨⟨e, he, hei⟩, _⟩ := h3 N hNL
            exact (hidne e he) hei
          refine ⟨by simp, ?_, ?_⟩
          · refine List.Nodup.append h2 (by simp) ?_
            intro x hx hx2
            simp at hx2
            subst hx2
            exact hNL hx
          · intro i hi
            rcases List.mem_append.mp hi with hiL | hiN
            · exact Or.inr (by simpa using h3 i hiL)
            · simp at hiN
              subst hiN
              exact Or.inl ⟨rfl, rfl⟩
        · have hbo : b ∈ t.ends_by_bottom := by
            rw [hsp]
            exact List.mem_append_right _ (List.mem_cons_of_mem _ hbQ)
          obtain ⟨h1, h2, h3⟩ := hc.ebb_valid b hbo
          exact ⟨h1, h2, fun i hi => Or.inr (h3 i hi)⟩
    · rw [hres] at hb
      rcases List.mem_append.mp hb with hbo | hbm
      · obtain ⟨h1, h2, h3⟩ := hc.ebb_valid b hbo
        exact ⟨h1, h2, fun i hi => Or.inr (h3 i hi)⟩
      · simp at hbm
        subst hbm
        refine ⟨by simp, by simp, ?_⟩
        intro i hi
        simp at hi
        subst hi
        exact Or.inl ⟨rfl, rfl⟩
  have hFindIn1 : ∀ e ∈ t.ends ++ [(d, N)],
      ∃ l, ebbFind (ebbAdd t.ends_by_bottom d.bottom N) e.1.bottom = some l ∧
        e.2 ∈ l := by
    intro e he
    rcases List.mem_append.mp he with heo | hen
    · obtain ⟨l, hfl, hel⟩ := hc.ends_in_ebb e heo
      rcases hshape with ⟨P2, L, Q2, hsp, hP2, hres⟩ | ⟨hall, hres⟩
      · by_cases hw : e.1.bottom = d.bottom
        · have hfL : ebbFind t.ends_by_bottom d.bottom = some L := by
            rw [hsp, ebbFind_skip hP2, ebbFind_cons_self]
          rw [hw, hfL] at hfl
          injection hfl with hfl
          refine ⟨L ++ [N], ?_, ?_⟩
          · rw [hres, hw, ebbFind_skip hP2, ebbFind_cons_self]
          · exact List.mem_append_left _ (hfl ▸ hel)
        · refine ⟨l, ?_, hel⟩
          rw [hres, ebbFind_mid_ne (fun hcc => hw hcc.symm) P2 (L ++ [N]) Q2,
            ← ebbFind_mid_ne (fun hcc => hw hcc.symm) P2 L Q2, ← hsp]
          exact hfl
      · refine ⟨l, ?_, hel⟩
        rw [hres]
        exact ebbFind_append_some hfl _
    · simp at hen
      subst hen
      rcases hshape with ⟨P2, L, Q2, hsp, hP2, hres⟩ | ⟨hall, hres⟩
      · refine ⟨L ++ [N], ?_, by simp⟩
        show ebbFind (ebbAdd t.ends_by_bottom d.bottom N) d.bottom = some (L ++ [N])
        rw [hres, ebbFind_skip hP2, ebbFind_cons_self]
      · refine ⟨[N], ?_, by simp⟩
        show ebbFind (ebbAdd t.ends_by_bottom d.bottom N) d.bottom = some [N]
        rw [hres, ebbFind_skip hall, ebbFind_cons_self]
  rcases hcase with ⟨hLopen, rfl⟩ | ⟨hLcomp, ebb', hrem, rfl⟩
  · -- the leaf stayed open: both indexes only gained the fresh node
    rw [hins]
    refine ⟨?_, ?_, ?_, ?_, ?_, ?_, ?_⟩
    · intro e he
      rcases List.mem_append.mp he with heo | hen
      · obtain ⟨h1, h2, h3⟩ := hc.ends_valid e heo
        by_cases hel : e.2 = leafIdx
        · have he' : e = (k, leafIdx) :=
            nodup_snd_inj hc.ids_nodup e heo (k, leafIdx) hkmem (by rw [hel])
          subst he'
          refine ⟨?_, ?_, ?_⟩
          · show leafIdx < nodes2.length
            rw [hlen2]; exact Nat.lt_succ_of_lt hlt
          · show (nodes2.getD leafIdx ⟨⟨0, 0⟩, []⟩).domino = k
            rw [hAtLeaf]; exact hLdom
          · show (nodes2.getD leafIdx ⟨⟨0, 0⟩, []⟩).is_complete = false
            rw [hAtLeaf]; exact hLopen
        · refine ⟨?_, ?_, ?_⟩
          · show e.2 < nodes2.length
            rw [hlen2]; exact Nat.lt_succ_of_lt h1
          · show (nodes2.getD e.2 ⟨⟨0, 0⟩, []⟩).domino = e.1
            rw [hAtOld e.2 h1 hel]; exact h2
          · show (nodes2.getD e.2 ⟨⟨0, 0⟩, []⟩).is_complete = false
            rw [hAtOld e.2 h1 hel]; exact h3
      · simp at hen
        subst hen
        refine ⟨?_, ?_, ?_⟩
        · show N < nodes2.length
          rw [hlen2]; exact Nat.lt_succ_self N
        · show (nodes2.getD N ⟨⟨0, 0⟩, []⟩).domino = d
          rw [hAtNew]
        · show (nodes2.getD N ⟨⟨0, 0⟩, []⟩).is_complete = false
          rw [hAtNew]; exact fresh_node_open d
    · intro i hi hiopen
      have hi' : i < N + 1 := hlen2 ▸ hi
      by_cases hiN : i = N
      · subst hiN
        exact ⟨(d, N), by simp, rfl⟩
      · have hiN' : i < N := Nat.lt_of_le_of_ne (Nat.le_of_lt_succ hi') hiN
        by_cases hil : i = leafIdx
        · exact ⟨(k, leafIdx), List.mem_append_left _ hkmem, hil.symm⟩
        · have hiopen' : (nodes2.getD i ⟨⟨0, 0⟩, []⟩).is_complete = false := hiopen
          rw [hAtOld i hiN' hil] at hiopen'
          obtain ⟨e, he, hei⟩ := hc.open_in_ends i hiN' hiopen'
          exact ⟨e, List.mem_append_left _ he, hei⟩
    · show (((t.ends ++ [(d, N)]).map Prod.snd)).Nodup
      rw [List.map_append]
      refine List.Nodup.append hc.ids_nodup (by simp) ?_
      intro x hx hx2
      simp at hx2
      subst hx2
      obtain ⟨e, he, hei⟩ := List.mem_map.mp hx
      exact (hidne e he) hei
    · show (((t.ends ++ [(d, N)]).map Prod.fst)).Pairwise
        (fun a b => Domino.eq a b = false)
      rw [List.map_append]
      refine List.pairwise_append.mpr ⟨hc.keys_neq, List.pairwise_singleton _ _, ?_⟩
      intro a ha b hb
      simp at hb
      subst hb
      obtain ⟨e, he, hef⟩ := List.mem_map.mp ha
      rw [← hef]
      exact hkeys e he
    · intro b hb
      obtain ⟨h1, h2, h3⟩ := hBucket b hb
      refine ⟨h1, h2, ?_⟩
      intro i hi
      rcases h3 i hi with ⟨hiN, hb1⟩ | ⟨⟨e, he, hei⟩, hbot⟩
      · subst hiN
        refine ⟨⟨(d, N), by simp, rfl⟩, ?_⟩
        show (nodes2.getD N ⟨⟨0, 0⟩, []⟩).domino.bottom = b.1
        rw [hAtNew]
        exact hb1.symm
      · refine ⟨⟨e, List.mem_append_left _ he, hei⟩, ?_⟩
        show (nodes2.getD i ⟨⟨0, 0⟩, []⟩).domino.bottom = b.1
        have hilt : i < N := hei ▸ hidlt e he
        rw [hdomAt i hilt]
        exact hbot
    · exact hKeys1
    · exact hFindIn1
  · -- the leaf reached capacity and was retired from both indexes
    rw [hins]
    have hdel : dictDelete (t.ends ++ [(d, N)]) leaf = P ++ (Q ++ [(d, N)]) := by
      have hre : t.ends ++ [(d, N)] = P ++ (k, leafIdx) :: (Q ++ [(d, N)]) := by
        rw [hsplit]; simp
      rw [hre]
      exact dictDelete_of_split P k leafIdx (Q ++ [(d, N)]) leaf hkleaf hPleaf
    rw [hdel]
    obtain ⟨P3, L3, Q3, hsp3, hP3, hiL3, hres3⟩ := ebbRemove_elim hrem
    have hmid3 : (leaf.bottom, L3) ∈ ebbAdd t.ends_by_bottom d.bottom N := by
      rw [hsp3]; simp
    obtain ⟨hL3ne, hL3nd, hL3fact⟩ := hBucket _ hmid3
    have hlneN : leafIdx ≠ N := Nat.ne_of_lt hlt
    have hbotk : (t.nodeAt leafIdx).domino.bottom = leaf.bottom := by
      rcases hL3fact leafIdx hiL3 with ⟨hiN, _⟩ | ⟨_, hbot⟩
      · exact absurd hiN hlneN
      · exact hbot
    have hmid_ids : ∀ e ∈ P ++ Q, e.2 ≠ leafIdx := by
      have hnd := hc.ids_nodup
      rw [hsplit, List.map_append, List.map_cons] at hnd
      have h2 := List.nodup_middle.mp hnd
      have h3 := (List.nodup_cons.mp h2).1
      intro e he hei
      apply h3
      show leafIdx ∈ P.map Prod.snd ++ Q.map Prod.snd
      rw [← hei, ← List.map_append]
      exact List.mem_map_of_mem Prod.snd he
    have hQ3keys : ∀ b ∈ Q3, b.1 ≠ leaf.bottom := by
      have hnd := hKeys1
      rw [hsp3, List.map_append, List.map_cons] at hnd
      have h2 := List.nodup_middle.mp hnd
      have h3 := (List.nodup_cons.mp h2).1
      intro b hb hbk
      apply h3
      show leaf.bottom ∈ List.map Prod.fst P3 ++ List.map Prod.fst Q3
      refine List.mem_append_right _ ?_
      rw [← hbk]
      exact List.mem_map_of_mem Prod.fst hb
    have hOnly : ∀ b ∈ P3 ++ Q3, leafIdx ∉ b.2 := by
      intro b hb hmem
      have hbin : b ∈ ebbAdd t.ends_by_bottom d.bottom N := by
        rw [hsp3]
        rcases List.mem_append.mp hb with hh | hh
        · exact List.mem_append_left _ hh
        · exact List.mem_append_right _ (List.mem_cons_of_mem _ hh)
      obtain ⟨_, _, hfact⟩ := hBucket b hbin
      rcases hfact leafIdx hmem with ⟨hiN, _⟩ | ⟨_, hbot⟩
      · exact hlneN hiN
      · have hbk : b.1 = leaf.bottom := by rw [← hbot]; exact hbotk
        rcases List.mem_append.mp hb with hh | hh
        · exact hP3 b hh hbk
        · exact hQ3keys b hh hbk
    have hPQsub : ∀ e ∈ P ++ Q, e ∈ t.ends := by
      intro e he
      rw [hsplit]
      rcases List.mem_append.mp he with hh | hh
      · exact List.mem_append_left _ hh
      · exact List.mem_append_right _ (List.mem_cons_of_mem _ hh)
    have hcases2 : ∀ e : Domino × Nat, e ∈ P ++ (Q ++ [(d, N)]) →
        (e ∈ P ++ Q) ∨ e = (d, N) := by
      intro e he
      rcases List.mem_append.mp he with hh | hh
      · exact Or.inl (List.mem_append_left _ hh)
      · rcases List.mem_append.mp hh with hh' | hh'
        · exact Or.inl (List.mem_append_right _ hh')
        · simp at hh'
          exact Or.inr hh'
    have hPQmem : ∀ e ∈ P ++ Q, e ∈ P ++ (Q ++ [(d, N)]) := by
      intro e he
      rcases List.mem_append.mp he with hh | hh
      · exact List.mem_append_left _ hh
      · exact List.mem_append_right _ (List.mem_append_left _ hh)
    refine ⟨?_, ?_, ?_, ?_, ?_, ?_, ?_⟩
    · intro e he
      rcases hcases2 e he with hePQ | heq
      · have heo := hPQsub e hePQ
        obtain ⟨h1, h2, h3⟩ := hc.ends_valid e heo
        have hne := hmid_ids e hePQ
        refine ⟨?_, ?_, ?_⟩
        · show e.2 < nodes2.length
          rw [hlen2]; exact Nat.lt_succ_of_lt h1
        · show (nodes2.getD e.2 ⟨⟨0, 0⟩, []⟩).domino = e.1
          rw [hAtOld e.2 h1 hne]; exact h2
        · show (nodes2.getD e.2 ⟨⟨0, 0⟩, []⟩).is_complete = false
          rw [hAtOld e.2 h1 hne]; exact h3
      · subst heq
        refine ⟨?_, ?_, ?_⟩
        · show N < nodes2.length
          rw [hlen2]; exact Nat.lt_succ_self N
        · show (nodes2.getD N ⟨⟨0, 0⟩, []⟩).domino = d
          rw [hAtNew]
        · show (nodes2.getD N ⟨⟨0, 0⟩, []⟩).is_complete = false
          rw [hAtNew]; exact fresh_node_open d
    · intro i hi hiopen
      have hi' : i < N + 1 := hlen2 ▸ hi
      by_cases hiN : i = N
      · subst hiN
        refine ⟨(d, N), ?_, rfl⟩
        exact List.mem_append_right _ (List.mem_append_right _ (by simp))
      · have hiN' : i < N := Nat.lt_of_le_of_ne (Nat.le_of_lt_succ hi') hiN
        by_cases hil : i = leafIdx
        · exfalso
          have hiopen' : (nodes2.getD leafIdx ⟨⟨0, 0⟩, []⟩).is_complete = false := by
            rw [← hil]; exact hiopen
          rw [hAtLeaf, hLcomp] at hiopen'
          exact absurd hiopen' (by simp)
        · have hiopen' : (nodes2.getD i ⟨⟨0, 0⟩, []⟩).is_complete = false := hiopen
          rw [hAtOld i hiN' hil] at hiopen'
          obtain ⟨e, he, hei⟩ := hc.open_in_ends i hiN' hiopen'
          have heP : e ∈ P ++ Q := by
            rw [hsplit] at he
            rcases List.mem_append.mp he with hh | hh
            · exact List.mem_append_left _ hh
            · rcases List.mem_cons.mp hh with hh' | hh'
              · exfalso
                rw [hh'] at hei
                exact hil hei.symm
              · exact List.mem_append_right _ hh'
          exact ⟨e, hPQmem e heP, hei⟩
    · show (((P ++ (Q ++ [(d, N)])).map Prod.snd)).Nodup
      have hnd := hc.ids_nodup
      rw [hsplit, List.map_append, List.map_cons] at hnd
      have h2 := List.nodup_middle.mp hnd
      have h3 := List.nodup_cons.mp h2
      have hPQnd : ((P ++ Q).map Prod.snd).Nodup := by
        rw [List.map_append]; exact h3.2
      have hfresh : ∀ x ∈ (P ++ Q).map Prod.snd, x ≠ N := by
        intro x hx
        obtain ⟨e, he, hei⟩ := List.mem_map.mp hx
        exact hei ▸ hidne e (hPQsub e he)
      have hbig : (((P ++ Q).map Prod.snd) ++ [N]).Nodup := by
        refine List.Nodup.append hPQnd (by simp) ?_
        intro x hx hx2
        simp at hx2
        subst hx2
        exact (hfresh N hx) rfl
      simpa [List.map_append, List.append_assoc] using hbig
    · show (((P ++ (Q ++ [(d, N)])).map Prod.fst)).Pairwise
        (fun a b => Domino.eq a b = false)
      have hpw := hc.keys_neq
      rw [hsplit, List.map_append, List.map_cons] at hpw
      have hsub : List.Sublist ((P ++ Q).map Prod.fst)
          (P.map Prod.fst ++ k :: Q.map Prod.fst) := by
        rw [List.map_append]
        exact List.Sublist.append_left (List.sublist_cons_self _ _) _
      have hPQpw := hpw.sublist hsub
      have hallk : ∀ a ∈ (P ++ Q).map Prod.fst, Domino.eq a d = false := by
        intro a ha
        obtain ⟨e, he, hef⟩ := List.mem_map.mp ha
        exact hef ▸ hkeys e (hPQsub e he)
      have hbig : (((P ++ Q).map Prod.fst) ++ [d]).Pairwise
          (fun a b => Domino.eq a b = false) := by
        refine List.pairwise_append.mpr ⟨hPQpw, List.pairwise_singleton _ _, ?_⟩
        intro a ha b hb
        simp at hb
        subst hb
        exact hallk a ha
      simpa [List.map_append, List.append_assoc] using hbig
    · intro b hb
      have hmemB : ∀ bb : Nat × List Nat, bb ∈ ebbAdd t.ends_by_bottom d.bottom N →
          (∀ i ∈ bb.2, i ≠ leafIdx) →
          bb.2 ≠ [] ∧ bb.2.Nodup ∧ ∀ i ∈ bb.2,
            (∃ e ∈ P ++ (Q ++ [(d, N)]), e.2 = i) ∧
            (nodes2.getD i ⟨⟨0, 0⟩, []⟩).domino.bottom = bb.1 := by
        intro bb hbb hno
        obtain ⟨h1, h2, h3⟩ := hBucket bb hbb
        refine ⟨h1, h2, ?_⟩
        intro i hi
        rcases h3 i hi with ⟨hiN, hb1⟩ | ⟨⟨e, he, hei⟩, hbot⟩
        · subst hiN
          refine ⟨⟨(d, N), ?_, rfl⟩, ?_⟩
          · exact List.mem_append_right _ (List.mem_append_right _ (by simp))
          · rw [hAtNew]; exact hb1.symm
        · have hine : e.2 ≠ leafIdx := by rw [hei]; exact hno i hi
          have heP : e ∈ P ++ Q := by
            rw [hsplit] at he
            rcases List.mem_append.mp he with hh | hh
            · exact List.mem_append_left _ hh
            · rcases List.mem_cons.mp hh with hh' | hh'
              · exact absurd (by rw [hh']) hine
              · exact List.mem_append_right _ hh'
          have hilt : i < N := hei ▸ hidlt e (hPQsub e heP)
          refine ⟨⟨e, hPQmem e heP, hei⟩, ?_⟩
          rw [hdomAt i hilt]
          exact hbot
      rw [hres3] at hb
      by_cases hemp : (L3.erase leafIdx).isEmpty = true
      · rw [if_pos hemp] at hb
        have hbin : b ∈ ebbAdd t.ends_by_bottom d.bottom N := by
          rw [hsp3]
          rcases List.mem_append.mp hb with hh | hh
          · exact List.mem_append_left _ hh
          · exact List.mem_append_right _ (List.mem_cons_of_mem _ hh)
        exact hmemB b hbin (fun i hi hie => hOnly b hb (hie ▸ hi))
      · rw [if_neg hemp] at hb
        rcases List.mem_append.mp hb with hP' | hmid'
        · have hbin : b ∈ ebbAdd t.ends_by_bottom d.bottom N := by
            rw [hsp3]
            exact List.mem_append_left _ hP'
          have hbPQ : b ∈ P3 ++ Q3 := List.mem_append_left _ hP'
          exact hmemB b hbin (fun i hi hie => hOnly b hbPQ (hie ▸ hi))
        · rcases List.mem_cons.mp hmid' with hbeq | hQ'
          · subst hbeq
            refine ⟨by simpa [List.isEmpty_iff] using hemp, hL3nd.erase _, ?_⟩
            intro i hi
            have hi3 : i ∈ L3 := List.mem_of_mem_erase hi
            have hine : i ≠ leafIdx := ((List.Nodup.mem_erase_iff hL3nd).mp hi).1
            rcases hL3fact i hi3 with ⟨hiN, hb1⟩ | ⟨⟨e, he, hei⟩, hbot⟩
            · subst hiN
              refine ⟨⟨(d, N), ?_, rfl⟩, ?_⟩
              · exact List.mem_append_right _ (List.mem_append_right _ (by simp))
              · show (nodes2.getD N ⟨⟨0, 0⟩, []⟩).domino.bottom = _
                rw [hAtNew]; exact hb1.symm
            · have hine' : e.2 ≠ leafIdx := by rw [hei]; exact hine
              have heP : e ∈ P ++ Q := by
                rw [hsplit] at he
                rcases List.mem_append.mp he with hh | hh
                · exact List.mem_append_left _ hh
                · rcases List.mem_cons.mp hh with hh' | hh'
                  · exact absurd (by rw [hh']) hine'
                  · exact List.mem_append_right _ hh'
              have hilt : i < N := hei ▸ hidlt e (hPQsub e heP)
              refine ⟨⟨e, hPQmem e heP, hei⟩, ?_⟩
              show (nodes2.getD i ⟨⟨0, 0⟩, []⟩).domino.bottom = _
              rw [hdomAt i hilt]
              exact hbot
          · have hbin : b ∈ ebbAdd t.ends_by_bottom d.bottom N := by
              rw [hsp3]
              exact List.mem_append_right _ (List.mem_cons_of_mem _ hQ')
            have hbPQ : b ∈ P3 ++ Q3 := List.mem_append_right _ hQ'
            exact hmemB b hbin (fun i hi hie => hOnly b hbPQ (hie ▸ hi))
    · show ((DominoTree.mk ebb' (P ++ (Q ++ [(d, N)])) t.root nodes2).ends_by_bottom.map
        Prod.fst).Nodup
      rw [hres3]
      by_cases hemp : (L3.erase leafIdx).isEmpty = true
      · rw [if_pos hemp]
        have hnd := hKeys1
        rw [hsp3, List.map_append, List.map_cons] at hnd
        have h2 := List.nodup_middle.mp hnd
        have h3 := (List.nodup_cons.mp h2).2
        rw [List.map_append]
        exact h3
      · rw [if_neg hemp]
        have hnd := hKeys1
        rw [hsp3] at hnd
        simpa using hnd
    · intro e he
      rcases hcases2 e he with hePQ | heq
      · obtain ⟨l1, hf1, hel1⟩ := hFindIn1 e (List.mem_append_left _ (hPQsub e hePQ))
        by_cases hw : e.1.bottom = leaf.bottom
        · have hf1' : ebbFind (ebbAdd t.ends_by_bottom d.bottom N) leaf.bottom =
              some l1 := hw ▸ hf1
          have hfL3 : ebbFind (ebbAdd t.ends_by_bottom d.bottom N) leaf.bottom =
              some L3 := by
            rw [hsp3, ebbFind_skip hP3, ebbFind_cons_self]
          rw [hfL3] at hf1'
          injection hf1' with hl
          subst hl
          have hine : e.2 ≠ leafIdx := hmid_ids e hePQ
          have hmem' : e.2 ∈ L3.erase leafIdx :=
            (List.Nodup.mem_erase_iff hL3nd).mpr ⟨hine, hel1⟩
          have hempf : ¬((L3.erase leafIdx).isEmpty = true) := by
            simp only [List.isEmpty_iff]
            exact List.ne_nil_of_mem hmem'
          refine ⟨L3.erase leafIdx, ?_, hmem'⟩
          show ebbFind ebb' e.1.bottom = some (L3.erase leafIdx)
          rw [hres3, if_neg hempf, hw, ebbFind_skip hP3, ebbFind_cons_self]
        · refine ⟨l1, ?_, hel1⟩
          show ebbFind ebb' e.1.bottom = some l1
          rw [hres3]
          by_cases hemp : (L3.erase leafIdx).isEmpty = true
          · rw [if_pos hemp,
              ← ebbFind_mid_ne (fun hcc => hw hcc.symm) P3 L3 Q3, ← hsp3]
            exact hf1
          · rw [if_neg hemp,
              ebbFind_mid_ne (fun hcc => hw hcc.symm) P3 (L3.erase leafIdx) Q3,
              ← ebbFind_mid_ne (fun hcc => hw hcc.symm) P3 L3 Q3, ← hsp3]
            exact hf1
      · subst heq
        obtain ⟨l1, hf1, hel1⟩ := hFindIn1 (d, N) (by simp)
        by_cases hw : (d : Domino).bottom = leaf.bottom
        · have hfL3 : ebbFind (ebbAdd t.ends_by_bottom d.bottom N) leaf.bottom =
              some L3 := by
            rw [hsp3, ebbFind_skip hP3, ebbFind_cons_self]
          have hfL3' : ebbFind (ebbAdd t.ends_by_bottom d.bottom N) d.bottom =
              some L3 := by
            nth_rewrite 2 [hw]
            exact hfL3
          have hf1'' : ebbFind (ebbAdd t.ends_by_bottom d.bottom N) d.bottom =
              some l1 := hf1
          rw [hfL3'] at hf1''
          injection hf1'' with hl
          subst hl
          have hNe : N ∈ L3.erase leafIdx :=
            (List.Nodup.mem_erase_iff hL3nd).mpr ⟨Ne.symm hlneN, hel1⟩
          have hempf : ¬((L3.erase leafIdx).isEmpty = true) := by
            simp only [List.isEmpty_iff]
            exact List.ne_nil_of_mem hNe
          refine ⟨L3.erase leafIdx, ?_, hNe⟩
          show ebbFind ebb' d.bottom = some (L3.erase leafIdx)
          rw [hres3, if_neg hempf, hw, ebbFind_skip hP3, ebbFind_cons_self]
        · refine ⟨l1, ?_, hel1⟩
          show ebbFind ebb' d.bottom = some l1
          rw [hres3]
          by_cases hemp : (L3.erase leafIdx).isEmpty = true
          · rw [if_pos hemp,
              ← ebbFind_mid_ne (fun hcc => hw hcc.symm) P3 L3 Q3, ← hsp3]
            exact hf1
          · rw [if_neg hemp,
              ebbFind_mid_ne (fun hcc => hw hcc.symm) P3 (L3.erase leafIdx) Q3,
              ← ebbFind_mid_ne (fun hcc => hw hcc.symm) P3 L3 Q3, ← hsp3]
            exact hf1

/-- The one-node tree installed by `add_to_end` on an empty train is coherent. -/
theorem coherent_singleton (x : Domino) :
    Coherent ⟨[(x.bottom, [0])], [(x, 0)], some 0, [⟨x, []⟩]⟩ := by
  refine ⟨?_, ?_, ?_, ?_, ?_, ?_, ?_⟩
  · intro e he
    simp at he
    subst he
    exact ⟨by simp, rfl, fresh_node_open x⟩
  · intro i hi hopen
    have hi0 : i = 0 := Nat.lt_one_iff.mp (by simpa using hi)
    subst hi0
    exact ⟨(x, 0), by simp, rfl⟩
  · simp
  · simp
  · intro b hb
    simp at hb
    subst hb
    refine ⟨by simp, by simp, ?_⟩
    intro i hi
    simp at hi
    subst hi
    exact ⟨⟨(x, 0), by simp, rfl⟩, rfl⟩
  · simp
  · intro e he
    simp at he
    subst he
    exact ⟨[0], by simp [ebbFind], by simp⟩

/-- Successful `add_to_end` preserves coherence of the end indexes, provided
the attached tile is distinct from every tile already placed. -/
theorem add_to_end_coherent {tr : Train} {e d0 : Domino} {tr' : Train}
    (hc : Coherent tr.tree)
    (hdist : ∀ n ∈ tr.tree.nodes, Domino.eq n.domino d0 = false)
    (h : tr.add_to_end e d0 = .ok tr') : Coherent tr'.tree := by
  unfold Train.add_to_end at h
  split at h
  · split at h
    · exact absurd h (by simp)
    · injection h with h
      rw [← h]
      exact coherent_singleton (orient d0 e)
  · split at h
    · exact absurd h (by simp)
    · rename_i t2 hadd
      injection h with h
      rw [← h]
      exact add_to_leaf_coherent hc hdist hadd

/-- C9 amended: after any sequence of successful `add_to_end` operations in
which every attached tile is distinct (under the orientation-invariant tile
equality) from every tile already placed, the `ends` dict holds exactly the
open nodes keyed by their own tiles and `ends_by_bottom` maps each face value
to exactly the open nodes exposing it, with no empty bucket retained. -/
theorem c9_ends_coherence_amended (tr : Train) (h : ReachableTrain tr) :
    CoherentB tr.tree = true := by
  induction h with
  | init name engine => rfl
  | step tr tr' e d hr hdist hok ih =>
    exact (coherentB_iff _).mpr
      (add_to_end_coherent ((coherentB_iff _).mp ih) hdist hok)

/-- A concrete one-step reachable train for the C9 witness. -/
def c9w_t0 : Train := Train.init "w" ⟨3, 3⟩

/-- The same train after attaching (3,1) to its seed. -/
def c9w_t1 : Train :=
  ⟨⟨[(1, [0])], [(⟨3, 1⟩, 0)], some 0, [⟨⟨3, 1⟩, []⟩]⟩, "w", ⟨3, 3⟩, false, false⟩

/-- C9 witness: the invariant holds on a concrete reachable chain. -/
theorem c9_ends_coherence_amended_witness : CoherentB c9w_t1.tree = true :=
  c9_ends_coherence_amended c9w_t1
    (ReachableTrain.step c9w_t0 c9w_t1 ⟨3, 3⟩ ⟨3, 1⟩
      (ReachableTrain.init "w" ⟨3, 3⟩) (by decide) (by decide))

/-- Unfolding of `playable_ends` on a non-empty tree with candidates. -/
theorem playable_ends_some {t : DominoTree} {r : Nat} (hroot : t.root = some r)
    {cands : List Domino} (hne : cands ≠ []) :
    t.playable_ends cands = some (((t.ends_by_bottom.filter
      (fun b => ((cands.map Domino.top) ++ (cands.map Domino.bottom)).contains b.1)).map
      (fun b => b.2.map (fun i => (t.nodeAt i).domino))).flatten) := by
  unfold DominoTree.playable_ends
  split
  · rename_i hn
    rw [hn] at hroot
    exact absurd hroot (by simp)
  · rw [if_neg (by simpa using hne)]

/-- Unfolding of `playable_ends` on a non-empty tree without candidates. -/
theorem playable_ends_nil {t : DominoTree} {r : Nat} (hroot : t.root = some r) :
    t.playable_ends [] = some (t.ends.map Prod.fst) := by
  unfold DominoTree.playable_ends
  split
  · rename_i hn
    rw [hn] at hroot
    exact absurd hroot (by simp)
  · rw [if_pos (by simp)]

/-- Unfolding of `playable_ends` on an empty tree. -/
theorem playable_ends_none {t : DominoTree} (hroot : t.root = none)
    (cands : List Domino) : t.playable_ends cands = none := by
  unfold DominoTree.playable_ends
  split
  · rfl
  · rename_i r' hr'
    rw [hr'] at hroot
    exact absurd hroot (by simp)

/-- A successful `ebbFind` is a membership. -/
theorem ebbFind_mem {ebb : List (Nat × List Nat)} {w : Nat} {L : List Nat}
    (h : ebbFind ebb w = some L) : (w, L) ∈ ebb := by
  obtain ⟨P, Q, hsp, _⟩ := ebbFind_split h
  rw [hsp]
  simp

/-- C4: `playable_ends` behaviour.  On a non-empty tree with candidates the
result consists exactly of the open-leaf tiles whose exposed (bottom) face is
a face of some candidate; without candidates it is every current leaf (which,
under coherence, are exactly the tiles of the open nodes); on an empty tree
the tree-level query signals `none`, while the train offers its engine seed —
unconditionally when no candidates were supplied, and only when some candidate
matches the seed in either orientation otherwise (the empty tuple else). -/
theorem c4_playable_ends (tr : Train) (cands : List Domino)
    (hc : CoherentB tr.tree = true) :
    (∀ r, tr.tree.root = some r → cands ≠ [] →
      ∀ dd, (dd ∈ (tr.tree.playable_ends cands).getD []) ↔
        (∃ e ∈ tr.tree.ends, e.1 = dd ∧
          (dd.bottom ∈ cands.map Domino.top ∨ dd.bottom ∈ cands.map Domino.bottom))) ∧
    (∀ r, tr.tree.root = some r →
      tr.tree.playable_ends [] = some (tr.tree.ends.map Prod.fst) ∧
      ∀ dd, dd ∈ tr.tree.ends.map Prod.fst ↔
        (∃ i, i < tr.tree.nodes.length ∧ (tr.tree.nodeAt i).is_complete = false ∧
          (tr.tree.nodeAt i).domino = dd)) ∧
    (tr.tree.root = none →
      tr.tree.playable_ends cands = none ∧
      (cands = [] → tr.playable_ends cands = [tr.engine]) ∧
      (cands ≠ [] →
        tr.playable_ends cands =
          (if cands.any (fun x => x.matches tr.engine || x.matches_flipped tr.engine)
           then [tr.engine] else []))) := by
  have hc' := (coherentB_iff _).mp hc
  refine ⟨?_, ?_, ?_⟩
  · intro r hroot hne dd
    rw [playable_ends_some hroot hne]
    simp only [Option.getD_some]
    constructor
    · intro hmem
      obtain ⟨l, hl, hdl⟩ := List.mem_flatten.mp hmem
      obtain ⟨b, hbf, hbl⟩ := List.mem_map.mp hl
      have hbe : b ∈ tr.tree.ends_by_bottom := List.mem_of_mem_filter hbf
      have hbc : (((cands.map Domino.top) ++ (cands.map Domino.bottom)).contains b.1)
          = true := (List.mem_filter.mp hbf).2
      obtain ⟨_, _, hmemb⟩ := hc'.ebb_valid b hbe
      rw [← hbl] at hdl
      obtain ⟨i, hib, hid⟩ := List.mem_map.mp hdl
      obtain ⟨⟨e, he, hei⟩, hbot⟩ := hmemb i hib
      obtain ⟨_, hedom, _⟩ := hc'.ends_valid e he
      refine ⟨e, he, ?_, ?_⟩
      · rw [← hedom, hei, hid]
      · have hdb : dd.bottom = b.1 := by
          rw [← hid]
          exact hbot
        rw [hdb]
        simpa using hbc
    · rintro ⟨e, he, rfl, hface⟩
      obtain ⟨_, hedom, _⟩ := hc'.ends_valid e he
      obtain ⟨l, hfind, hel⟩ := hc'.ends_in_ebb e he
      have hbmem : (e.1.bottom, l) ∈ tr.tree.ends_by_bottom := ebbFind_mem hfind
      have hbf : (e.1.bottom, l) ∈ tr.tree.ends_by_bottom.filter
          (fun b => ((cands.map Domino.top) ++ (cands.map Domino.bottom)).contains b.1) := by
        refine List.mem_filter.mpr ⟨hbmem, ?_⟩
        simpa using hface
      refine List.mem_flatten.mpr ⟨l.map (fun i => (tr.tree.nodeAt i).domino), ?_, ?_⟩
      · exact List.mem_map.mpr ⟨(e.1.bottom, l), hbf, rfl⟩
      · exact List.mem_map.mpr ⟨e.2, hel, hedom⟩
  · intro r hroot
    refine ⟨playable_ends_nil hroot, ?_⟩
    intro dd
    constructor
    · intro hdd
      obtain ⟨e, he, hef⟩ := List.mem_map.mp hdd
      obtain ⟨h1, h2, h3⟩ := hc'.ends_valid e he
      exact ⟨e.2, h1, h3, by rw [h2, hef]⟩
    · rintro ⟨i, hi, hiopen, hidom⟩
      obtain ⟨e, he, hei⟩ := hc'.open_in_ends i hi hiopen
      obtain ⟨_, h2, _⟩ := hc'.ends_valid e he
      refine List.mem_map.mpr ⟨e, he, ?_⟩
      rw [← h2, hei, hidom]
  · intro hroot
    have hemp : tr.tree.is_empty = true := by
      simp [DominoTree.is_empty, hroot]
    refine ⟨playable_ends_none hroot cands, ?_, ?_⟩
    · intro hnil
      subst hnil
      unfold Train.playable_ends
      rw [if_pos hemp, if_pos (by simp)]
    · intro hne
      unfold Train.playable_ends
      rw [if_pos hemp, if_neg (by simpa using hne)]

/-- A concrete coherent one-tile chain for the C4 witness. -/
def c4w : Train :=
  ⟨⟨[(2, [0])], [(⟨6, 2⟩, 0)], some 0, [⟨⟨6, 2⟩, []⟩]⟩, "c", ⟨6, 6⟩, false, false⟩

/-- C4 witness: on a concrete coherent chain the end (6,2) is offered for the
candidate (2,5), which shares its exposed face 2. -/
theorem c4_playable_ends_witness :
    (⟨6, 2⟩ : Domino) ∈ ((c4w.tree.playable_ends [⟨2, 5⟩]).getD []) :=
  ((c4_playable_ends c4w [⟨2, 5⟩] (by decide)).1 0 rfl (by decide) ⟨6, 2⟩).mpr
    (by decide)

/-- Code-point comparison of characters, as Python string comparison uses. -/
def charLtB (a b : Char) : Bool := a.val.toNat < b.val.toNat

/-- Lexicographic code-point comparison of character lists. -/
def strLtAux : List Char → List Char → Bool
  | [], [] => false
  | [], _ :: _ => true
  | _ :: _, [] => false
  | a :: as, b :: bs =>
    if charLtB a b then true else if charLtB b a then false else strLtAux as bs

/-- Python `str` comparison (`player.name < other.name`). -/
def strLtB (a b : String) : Bool := strLtAux a.data b.data

/-- A player (engine/models/game.py, class Player): a named hand of tiles.
The hand is the underlying `DominoSet`, modelled as a list read up to
`Domino.eq`. -/
structure PlayerState where
  name : String
  dominoes : List Domino
deriving DecidableEq, Repr

/-- The mutable per-round state of a `Game` (engine/models/game.py, class
Game): the players with their hands, the per-player trains (the `trains`
dict in insertion order, keyed by player name), the community train, the
engine tile and the boneyard. -/
structure GameState where
  players : List PlayerState
  trains : List (String × Train)
  community_train : Train
  engine : Domino
  boneyard : List Domino
deriving DecidableEq, Repr

/-- A reference to one of the game's trains: the community train or a player's. -/
inductive TrainSel where
  | community : TrainSel
  | owned : String → TrainSel
deriving DecidableEq, Repr

/-- Lookup in the `trains` dict by owner name.  The default arm models the
`KeyError` a missing key would raise; it is unreachable through the game flow. -/
def lookupAssoc (l : List (String × Train)) (n : String) : Train :=
  match l.find? (fun q => q.1 == n) with
  | some q => q.2
  | none => Train.init n ⟨0, 0⟩

/-- Dereference a train (object references of the source become `TrainSel`). -/
def lookupTrain (s : GameState) : TrainSel → Train
  | .community => s.community_train
  | .owned n => lookupAssoc s.trains n

/-- The acting player's hand (`player.dominoes`). -/
def handOf (s : GameState) (p : String) : List Domino :=
  match s.players.find? (fun q => q.name == p) with
  | some q => q.dominoes
  | none => []

/-- Replace the acting player's hand (hand mutation in the source). -/
def setHand (s : GameState) (p : String) (h : List Domino) : GameState :=
  { s with players :=
      s.players.map (fun q => if q.name == p then { q with dominoes := h } else q) }

/-- Replace a train (train mutation in the source). -/
def setTrain (s : GameState) : TrainSel → Train → GameState
  | .community, tr => { s with community_train := tr }
  | .owned n, tr =>
    { s with trains := s.trains.map (fun q => if q.1 == n then (q.1, tr) else q) }

/-- `Game.get_playable_trains`: the community train followed by every train
that is the player's own or currently marked. -/
def get_playable_trains (s : GameState) (p : String) : List TrainSel :=
  .community ::
    ((s.trains.filter (fun q => q.1 == p || (q.2.is_marked))).map
      (fun q => TrainSel.owned q.1))

/-- `Game.can_move`: some playable train offers a non-empty set of ends
against the player's hand. -/
def can_move (s : GameState) (p : String) : Bool :=
  (get_playable_trains s p).any
    (fun sel => !((lookupTrain s sel).playable_ends (handOf s p)).isEmpty)

/-- Stable insertion for Python `sorted` over dominoes: `Domino.__lt__` orders
by descending point value, ties keep their original order. -/
def insertD (x : Domino) : List Domino → List Domino
  | [] => [x]
  | y :: ys => if y.value < x.value then x :: y :: ys else y :: insertD x ys

/-- `sorted(train.playable_ends([]))`. -/
def sortDominoes (l : List Domino) : List Domino := l.foldr insertD []

/-- Stable insertion sorting train entries by owner name ascending. -/
def insertT (x : String × Train) : List (String × Train) → List (String × Train)
  | [] => [x]
  | y :: ys => if strLtB x.1 y.1 then x :: y :: ys else y :: insertT x ys

/-- `sorted(self.trains.items(), key=lambda item: item[0].name)`. -/
def sortTrains (l : List (String × Train)) : List (String × Train) :=
  l.foldr insertT []

/-- `Game.hash_train`: the owner together with the sorted current ends. -/
def hash_train (tr : Train) : String × List Domino :=
  (tr.player_name, sortDominoes (tr.playable_ends []))

/-- `GameHash`: the canonical snapshot of every chain's end-set. -/
abbrev GameHash : Type := List (String × List Domino)

/-- `Game.to_hashable`: the player trains sorted by owner name, then the
community train.  (The source hashes first and sorts the hash pairs by the
owner's name; since `hash_train` keeps the owner, sorting first is the same.) -/
def to_hashable (s : GameState) : GameHash :=
  ((sortTrains s.trains).map (fun q => hash_train q.2)) ++
    [hash_train s.community_train]

/-- Python `!=` on two end tuples: same length and pairwise `Domino.__eq__`. -/
def endsEqB (a b : List Domino) : Bool :=
  a.length == b.length && (a.zip b).all (fun q => Domino.eq q.1 q.2)

/-- Equality of two snapshots under the tile equality. -/
def ghEqB (a b : GameHash) : Bool :=
  a.length == b.length &&
    (a.zip b).all (fun q => q.1.1 == q.2.1 && endsEqB q.1.2 q.2.2)

/-- Walk of `Game.did_move`: compare each player train (sorted by name)
against the stored snapshot entry, then the community train.  The
`[] , _ :: _` and exhausted-snapshot cases model `StopIteration` and are
unreachable when the snapshot came from `to_hashable`. -/
def did_move_aux (comm : Train) :
    List (String × Train) → GameHash → Option TrainSel
  | (n, tr) :: rest, (_, pends) :: prest =>
    if !(endsEqB pends (hash_train tr).2) then some (.owned n)
    else did_move_aux comm rest prest
  | _ :: _, [] => none
  | [], (_, pends) :: _ =>
    if !(endsEqB pends (hash_train comm).2) then some .community else none
  | [], [] => none

/-- `Game.did_move`: the first train whose end-set changed, if any. -/
def did_move (s : GameState) (prev : GameHash) : Option TrainSel :=
  did_move_aux s.community_train (sortTrains s.trains) prev

/-- The exceptions `Game` can raise: `InvalidMoveException` carrying the
pre-move snapshot, or any other runtime error. -/
inductive GameError where
  | invalidMove : GameHash → GameError
  | runtime : String → GameError

/-- `self.trains[player].set_marked()`. -/
def mark_train (s : GameState) (p : String) : GameState :=
  setTrain s (.owned p) ((lookupTrain s (.owned p)).set_marked)

/-- `self.trains[player].set_unmarked()`. -/
def unmark_train (s : GameState) (p : String) : GameState :=
  setTrain s (.owned p) ((lookupTrain s (.owned p)).set_unmarked)

/-- `Game.attempt_move` with the `make_move` callback abstracted: `pre` is the
state at entry, `post` the state after the callback returned.  Legality is
decided purely from the snapshot diff, exactly as in the source. -/
def attempt_move_with (pre : GameState) (p : String) (post : GameState) :
    Except GameError (GameState × Bool) :=
  match did_move post (to_hashable pre) with
  | none =>
    if can_move pre p then .error (.invalidMove (to_hashable pre))
    else .ok (mark_train post p, false)
  | some sel =>
    if (lookupTrain post sel).player_name != p &&
        !((lookupTrain post sel).is_marked) then
      .error (.invalidMove (to_hashable pre))
    else if (lookupTrain post sel).player_name == p then
      .ok (unmark_train post p, true)
    else
      .ok (post, true)

/-- `ghEqB` on cons cells decomposes into head and tail comparisons. -/
theorem ghEqB_cons {x y : String × List Domino} {xs ys : GameHash} :
    ghEqB (x :: xs) (y :: ys) = true ↔
      ((x.1 == y.1 && endsEqB x.2 y.2) = true ∧ ghEqB xs ys = true) := by
  simp only [ghEqB, List.length_cons, List.zip_cons_cons, List.all_cons,
    Bool.and_eq_true, beq_iff_eq, Nat.succ_inj']
  tauto

/-- When a snapshot agrees (under the tile equality) with the hashes of the
current trains and community train, the `did_move` walk reports no change. -/
theorem did_move_aux_none (comm : Train) :
    ∀ (cur : List (String × Train)) (prev : GameHash),
    ghEqB prev ((cur.map (fun q => hash_train q.2)) ++ [hash_train comm]) = true →
    did_move_aux comm cur prev = none := by
  intro cur
  induction cur with
  | nil =>
    intro prev h
    match prev with
    | [] => rfl
    | x :: prest =>
      match prest with
      | [] =>
        obtain ⟨xn, xends⟩ := x
        obtain ⟨hhead, -⟩ := ghEqB_cons.mp (by simpa using h)
        have hce : endsEqB xends (hash_train comm).2 = true := by
          simp only [Bool.and_eq_true] at hhead
          exact hhead.2
        simp [did_move_aux, hce]
      | y :: prest' =>
        exfalso
        have hlen : (x :: y :: prest').length = 1 := by
          simp only [ghEqB, Bool.and_eq_true, beq_iff_eq] at h
          simpa using h.1
        simp at hlen
  | cons hd tl ih =>
    intro prev h
    match prev with
    | [] =>
      exfalso
      simp only [ghEqB, Bool.and_eq_true, beq_iff_eq] at h
      have := h.1
      simp at this
    | x :: prest =>
      obtain ⟨n, tr⟩ := hd
      obtain ⟨pn, pends⟩ := x
      obtain ⟨hhead, htail⟩ := ghEqB_cons.mp (by simpa using h)
      have hce : endsEqB pends (hash_train tr).2 = true := by
        simp only [Bool.and_eq_true] at hhead
        exact hhead.2
      show did_move_aux comm ((n, tr) :: tl) ((pn, pends) :: prest) = none
      unfold did_move_aux
      rw [if_neg (by simp [hce])]
      exact ih prest htail

/-- Unchanged snapshot (under the tile equality) means `did_move` sees nothing. -/
theorem did_move_none_of_ghEq {pre post : GameState}
    (h : ghEqB (to_hashable pre) (to_hashable post) = true) :
    did_move post (to_hashable pre) = none := by
  unfold did_move
  exact did_move_aux_none _ _ _ (by simpa [to_hashable] using h)

/-- After pointwise-updating the entry for a present key, `find?` returns the
updated entry. -/
theorem findMap (l : List (String × Train)) (p : String) (tr : Train)
    (hp : p ∈ l.map Prod.fst) :
    (l.map (fun q => if q.1 == p then (q.1, tr) else q)).find?
      (fun q => q.1 == p) = some (p, tr) := by
  induction l with
  | nil => simp at hp
  | cons hd tl ih =>
    by_cases hh : hd.1 = p
    · simp only [List.map_cons]
      rw [if_pos (by simpa using hh)]
      rw [List.find?_cons_of_pos _ (by simpa using hh)]
      rw [hh]
    · simp only [List.map_cons]
      rw [if_neg (by simpa using hh)]
      rw [List.find?_cons_of_neg _ (by simpa using hh)]
      apply ih
      rw [List.map_cons] at hp
      rcases List.mem_cons.mp hp with hc | hc
      · exact absurd hc.symm hh
      · exact hc

/-- `lookupAssoc` after a pointwise update of a present key. -/
theorem lookupAssoc_map (l : List (String × Train)) (p : String) (tr : Train)
    (hp : p ∈ l.map Prod.fst) :
    lookupAssoc (l.map (fun q => if q.1 == p then (q.1, tr) else q)) p = tr := by
  unfold lookupAssoc
  rw [findMap l p tr hp]

/-- `lookupAssoc` on an absent key yields the default. -/
theorem lookupAssoc_not_mem (l : List (String × Train)) (p : String)
    (hp : p ∉ l.map Prod.fst) :
    lookupAssoc l p = Train.init p ⟨0, 0⟩ := by
  unfold lookupAssoc
  have hfind : l.find? (fun q => q.1 == p) = none := by
    rw [List.find?_eq_none]
    intro q hq
    have hne : q.1 ≠ p := fun hqq => hp (hqq ▸ List.mem_map_of_mem Prod.fst hq)
    simpa using hne
  rw [hfind]

/-- Marking the acting player's train makes that train's flag true. -/
theorem marked_after_mark (s : GameState) (p : String)
    (hp : p ∈ s.trains.map Prod.fst) :
    (lookupTrain (mark_train s p) (.owned p)).marked = true := by
  show (lookupAssoc (s.trains.map (fun q => if q.1 == p then
      (q.1, (lookupTrain s (.owned p)).set_marked) else q)) p).marked = true
  rw [lookupAssoc_map _ _ _ hp]
  rfl

/-- Unmarking the acting player's train makes that train's flag false. -/
theorem marked_after_unmark (s : GameState) (p : String) :
    (lookupTrain (unmark_train s p) (.owned p)).marked = false := by
  by_cases hp : p ∈ s.trains.map Prod.fst
  · show (lookupAssoc (s.trains.map (fun q => if q.1 == p then
        (q.1, (lookupTrain s (.owned p)).set_unmarked) else q)) p).marked = false
    rw [lookupAssoc_map _ _ _ hp]
    rfl
  · have hid : s.trains.map
        (fun q => if q.1 == p then (q.1, (lookupTrain s (.owned p)).set_unmarked)
                  else q) = s.trains := by
      have hmc : s.trains.map
          (fun q => if q.1 == p then (q.1, (lookupTrain s (.owned p)).set_unmarked)
                    else q) = s.trains.map id := by
        apply List.map_congr_left
        intro q hq
        have hne : q.1 ≠ p := fun hqq => hp (hqq ▸ List.mem_map_of_mem Prod.fst hq)
        rw [if_neg (by simpa using hne)]
        rfl
      rw [hmc, List.map_id]
    show (lookupAssoc (s.trains.map (fun q => if q.1 == p then
        (q.1, (lookupTrain s (.owned p)).set_unmarked) else q)) p).marked = false
    rw [hid, lookupAssoc_not_mem s.trains p hp]
    rfl

/-- C1: legality of a subsequent-turn move attempt is decided from the
snapshot diff.  A callback that changed no chain's end-set while a legal move
existed raises `InvalidMove` carrying the pre-move snapshot; a diff showing a
play onto a chain that is neither the player's own nor marked raises
`InvalidMove` with the same snapshot; a successful play onto the player's own
chain unmarks it; and a no-move when no legal move existed marks the player's
own chain. -/
theorem c1_attempt_move (pre post : GameState) (p : String)
    (hp : p ∈ post.trains.map Prod.fst) :
    (ghEqB (to_hashable pre) (to_hashable post) = true → can_move pre p = true →
      attempt_move_with pre p post = .error (.invalidMove (to_hashable pre))) ∧
    (∀ sel, did_move post (to_hashable pre) = some sel →
      (lookupTrain post sel).player_name ≠ p →
      (lookupTrain post sel).is_marked = false →
      attempt_move_with pre p post = .error (.invalidMove (to_hashable pre))) ∧
    (∀ sel, did_move post (to_hashable pre) = some sel →
      (lookupTrain post sel).player_name = p →
      attempt_move_with pre p post = .ok (unmark_train post p, true) ∧
      (lookupTrain (unmark_train post p) (.owned p)).marked = false) ∧
    (did_move post (to_hashable pre) = none → can_move pre p = false →
      attempt_move_with pre p post = .ok (mark_train post p, false) ∧
      (lookupTrain (mark_train post p) (.owned p)).marked = true) := by
  refine ⟨?_, ?_, ?_, ?_⟩
  · intro hgh hcm
    have hdm := did_move_none_of_ghEq hgh
    unfold attempt_move_with
    split
    · rw [if_pos hcm]
    · rename_i sel hsel
      rw [hdm] at hsel
      exact absurd hsel (by simp)
  · intro sel hsel hname hmarked
    unfold attempt_move_with
    split
    · rename_i hnone
      rw [hnone] at hsel
      exact absurd hsel (by simp)
    · rename_i sel' hsel'
      have hss : sel' = sel := by
        rw [hsel'] at hsel
        injection hsel
      subst hss
      rw [if_pos (by simp [bne_iff_ne, hname, hmarked])]
  · intro sel hsel hname
    unfold attempt_move_with
    split
    · rename_i hnone
      rw [hnone] at hsel
      exact absurd hsel (by simp)
    · rename_i sel' hsel'
      have hss : sel' = sel := by
        rw [hsel'] at hsel
        injection hsel
      subst hss
      refine ⟨?_, marked_after_unmark post p⟩
      rw [if_neg (by simp [bne_iff_ne, hname]), if_pos (by simpa using hname)]
  · intro hdm hcm
    unfold attempt_move_with
    split
    · rename_i hnone
      refine ⟨?_, marked_after_mark post p hp⟩
      rw [if_neg (by simp [hcm])]
    · rename_i sel hsel
      rw [hdm] at hsel
      exact absurd hsel (by simp)

/-- Pre-move state of the C1 witness game: two fresh trains, player a holding
(9,3). -/
def c1w_pre : GameState :=
  ⟨[⟨"a", [⟨9, 3⟩]⟩, ⟨"b", [⟨1, 2⟩]⟩],
   [("a", Train.init "a" ⟨9, 9⟩), ("b", Train.init "b" ⟨9, 9⟩)],
   CommunityTrain.init ⟨9, 9⟩, ⟨9, 9⟩, [⟨0, 1⟩]⟩

/-- Post-callback state of the C1 witness game: player a played (9,3) onto
their own train. -/
def c1w_post : GameState :=
  ⟨[⟨"a", []⟩, ⟨"b", [⟨1, 2⟩]⟩],
   [("a", ⟨⟨[(3, [0])], [(⟨9, 3⟩, 0)], some 0, [⟨⟨9, 3⟩, []⟩]⟩, "a", ⟨9, 9⟩,
      false, false⟩),
    ("b", Train.init "b" ⟨9, 9⟩)],
   CommunityTrain.init ⟨9, 9⟩, ⟨9, 9⟩, [⟨0, 1⟩]⟩

/-- C1 witness: on the concrete game, the diff identifies player a's own
train, the attempt succeeds and the train is unmarked. -/
theorem c1_attempt_move_witness :
    attempt_move_with c1w_pre "a" c1w_post = .ok (unmark_train c1w_post "a", true) :=
  ((c1_attempt_move c1w_pre c1w_post "a" (by decide)).2.2.1 (.owned "a")
    (by decide) (by decide)).1

/-- Inner loop of the greedy `Player.make_move`: try each offered end of the
chosen train.  `get_matching` reorients the hand as a side effect, the first
match is drawn from the hand and played via `add_to_end`. -/
def try_ends (p : String) (sel : TrainSel) :
    GameState → List Domino → Except String (GameState × Bool)
  | s, [] => .ok (s, false)
  | s, e :: rest =>
    match all_matching (handOf s p) e with
    | (hand', []) => try_ends p sel (setHand s p hand') rest
    | (hand', m :: _) =>
      match (lookupTrain (setHand s p (removeFirstDeq hand' m)) sel).add_to_end e m with
      | .error err => .error err
      | .ok tr' => .ok (setTrain (setHand s p (removeFirstDeq hand' m)) sel tr', true)

/-- Outer loop of the greedy `Player.make_move`: try each playable train in
order; a train with no playable ends against the hand is skipped. -/
def try_trains (p : String) :
    GameState → List TrainSel → Except String (GameState × Bool)
  | s, [] => .ok (s, false)
  | s, sel :: rest =>
    if ((lookupTrain s sel).playable_ends (handOf s p)).isEmpty then
      try_trains p s rest
    else
      match try_ends p sel s ((lookupTrain s sel).playable_ends (handOf s p)) with
      | .error err => .error err
      | .ok (s', true) => .ok (s', true)
      | .ok (s', false) => try_trains p s' rest

/-- `Player.make_move` over the playable trains (the list always contains the
community train, so it is never empty and the defensive raise never fires). -/
def make_move (s : GameState) (p : String) : Except String GameState :=
  match try_trains p s (get_playable_trains s p) with
  | .error e => .error e
  | .ok (s', _) => .ok s'

/-- `Game.attempt_move` with the greedy player: run the callback, then judge
the diff. -/
def attempt_move (s : GameState) (p : String) :
    Except GameError (GameState × Bool) :=
  match make_move s p with
  | .error e => .error (.runtime e)
  | .ok post => attempt_move_with s p post

/-- One subsequent (non-first) turn of `Game.play` for the acting player:
attempt a move; when it failed and the boneyard is non-empty, draw one tile
(`draw_random` modelled as the pile's first element) and re-attempt.  Returns
the resulting state and the number of tiles drawn. -/
def play_turn (s : GameState) (p : String) :
    Except GameError (GameState × Nat) :=
  match attempt_move s p with
  | .error e => .error e
  | .ok (s1, moved) =>
    if !moved && !s1.boneyard.isEmpty then
      match s1.boneyard with
      | [] => .error (.runtime "unreachable: draw from empty boneyard")
      | dTop :: rest =>
        match attempt_move
            { setHand s1 p (handAdd (handOf s1 p) dTop) with boneyard := rest } p with
        | .error e => .error e
        | .ok (s3, _) => .ok (s3, 1)
    else .ok (s1, 0)

/-- The outcome of the draw-and-retry path of a turn: the player's train was
marked by the failed first attempt, exactly one tile moved from the pile to
the hand, and the turn is decided by the single re-attempt. -/
def c6_redraw (s : GameState) (p : String) (dTop : Domino) (rest : List Domino) :
    Except GameError (GameState × Nat) :=
  match attempt_move
      { setHand (mark_train s p) p (handAdd (handOf (mark_train s p) p) dTop)
        with boneyard := rest } p with
  | .error e => .error e
  | .ok (s3, _) => .ok (s3, 1)

/-- Zipping a list with itself pairs equal elements. -/
theorem zip_self_eq {α : Type} :
    ∀ (l : List α) (q : α × α), q ∈ l.zip l → q.1 = q.2 := by
  intro l
  induction l with
  | nil => simp
  | cons x xs ih =>
    intro q hq
    rw [List.zip_cons_cons] at hq
    rcases List.mem_cons.mp hq with rfl | hq'
    · rfl
    · exact ih q hq'

/-- `endsEqB` is reflexive. -/
theorem endsEqB_refl (l : List Domino) : endsEqB l l = true := by
  simp only [endsEqB, beq_self_eq_true, Bool.true_and, List.all_eq_true]
  intro q hq
  rw [zip_self_eq l q hq]
  exact deq_refl _

/-- `ghEqB` is reflexive. -/
theorem ghEqB_refl (gh : GameHash) : ghEqB gh gh = true := by
  simp only [ghEqB, beq_self_eq_true, Bool.true_and, List.all_eq_true]
  intro q hq
  rw [zip_self_eq gh q hq]
  simp [endsEqB_refl]

/-- When no hand tile matches any current end of a coherent train (in either
orientation), the train offers no playable end against that hand. -/
theorem no_playable (tr : Train) (hand : List Domino)
    (hc : CoherentB tr.tree = true) (hh : hand ≠ [])
    (hnm : ∀ e ∈ tr.playable_ends [], ∀ dd ∈ hand,
      dd.matches e = false ∧ dd.matches_flipped e = false) :
    tr.playable_ends hand = [] := by
  by_cases hemp : tr.tree.is_empty = true
  · have hE : tr.playable_ends [] = [tr.engine] := by
      unfold Train.playable_ends
      rw [if_pos hemp, if_pos (by simp)]
    have hany : hand.any
        (fun dd => dd.matches tr.engine || dd.matches_flipped tr.engine) = false := by
      rw [List.any_eq_false]
      intro dd hdd
      have := hnm tr.engine (by rw [hE]; simp) dd hdd
      simp [this.1, this.2]
    unfold Train.playable_ends
    rw [if_pos hemp, if_neg (by simpa using hh), if_neg (by simp [hany])]
  · have hroot : ∃ r, tr.tree.root = some r := by
      unfold DominoTree.is_empty at hemp
      cases hr : tr.tree.root with
      | none => rw [hr] at hemp; simp at hemp
      | some r => exact ⟨r, rfl⟩
    obtain ⟨r, hroot⟩ := hroot
    have hc' := (coherentB_iff _).mp hc
    unfold Train.playable_ends
    rw [if_neg hemp, playable_ends_some hroot hh]
    simp only [Option.getD_some]
    have hfilter : tr.tree.ends_by_bottom.filter
        (fun b => ((hand.map Domino.top) ++ (hand.map Domino.bottom)).contains b.1)
        = [] := by
      rw [List.filter_eq_nil_iff]
      intro b hb
      intro hcont
      have hfaces : b.1 ∈ hand.map Domino.top ∨ b.1 ∈ hand.map Domino.bottom := by
        simpa using hcont
      obtain ⟨hne', _, hmem'⟩ := hc'.ebb_valid b hb
      obtain ⟨i, hi⟩ := List.exists_mem_of_ne_nil b.2 hne'
      obtain ⟨⟨e, he, hei⟩, hbot⟩ := hmem' i hi
      have hE : e.1 ∈ tr.playable_ends [] := by
        unfold Train.playable_ends
        rw [if_neg hemp, playable_ends_nil hroot]
        simp only [Option.getD_some]
        exact List.mem_map_of_mem Prod.fst he
      obtain ⟨_, hedom, _⟩ := hc'.ends_valid e he
      have hbV : e.1.bottom = b.1 := by
        rw [← hedom, hei]
        exact hbot
      rcases hfaces with hTop | hBot
      · obtain ⟨dd, hdd, hdf⟩ := List.mem_map.mp hTop
        have hx : (dd.top == e.1.bottom) = false := (hnm e.1 hE dd hdd).1
        rw [hdf, hbV] at hx
        simp at hx
      · obtain ⟨dd, hdd, hdf⟩ := List.mem_map.mp hBot
        have hx : (dd.bottom == e.1.bottom) = false := (hnm e.1 hE dd hdd).2
        rw [hdf, hbV] at hx
        simp at hx
    rw [hfilter]
    simp

/-- The greedy loop skips every train that offers no ends and changes nothing. -/
theorem try_trains_skip (p : String) :
    ∀ (sels : List TrainSel) (s : GameState),
    (∀ sel ∈ sels, (lookupTrain s sel).playable_ends (handOf s p) = []) →
    try_trains p s sels = .ok (s, false) := by
  intro sels
  induction sels with
  | nil => intro s _; rfl
  | cons sel rest ih =>
    intro s h
    unfold try_trains
    rw [if_pos (by rw [h sel (by simp)]; rfl)]
    exact ih s (fun x hx => h x (List.mem_cons_of_mem _ hx))

/-- With nothing playable, the greedy `make_move` leaves the state unchanged. -/
theorem make_move_noop {s : GameState} {p : String}
    (hall : ∀ sel ∈ get_playable_trains s p,
      (lookupTrain s sel).playable_ends (handOf s p) = []) :
    make_move s p = .ok s := by
  unfold make_move
  rw [try_trains_skip p _ s hall]

/-- With nothing playable, `can_move` reports false. -/
theorem can_move_false {s : GameState} {p : String}
    (hall : ∀ sel ∈ get_playable_trains s p,
      (lookupTrain s sel).playable_ends (handOf s p) = []) :
    can_move s p = false := by
  unfold can_move
  rw [List.any_eq_false]
  intro sel hsel
  rw [hall sel hsel]
  simp

/-- With nothing playable, `attempt_move` marks the player's train and
reports no move. -/
theorem attempt_move_nomove {s : GameState} {p : String}
    (hall : ∀ sel ∈ get_playable_trains s p,
      (lookupTrain s sel).playable_ends (handOf s p) = []) :
    attempt_move s p = .ok (mark_train s p, false) := by
  have hmm := make_move_noop hall
  unfold attempt_move
  split
  · rename_i err herr
    rw [hmm] at herr
    exact absurd herr (by simp)
  · rename_i post hpost
    have hps : s = post := by
      rw [hmm] at hpost
      injection hpost
    subst hps
    have hdm : did_move s (to_hashable s) = none :=
      did_move_none_of_ghEq (ghEqB_refl _)
    have hcm := can_move_false hall
    unfold attempt_move_with
    split
    · rw [if_neg (by simp [hcm])]
    · rename_i sel hsel
      rw [hdm] at hsel
      exact absurd hsel (by simp)

/-- A turn never draws more than one tile. -/
theorem play_turn_draws_le_one (s : GameState) (p : String) :
    ∀ s' n, play_turn s p = .ok (s', n) → n ≤ 1 := by
  intro s' n h
  unfold play_turn at h
  split at h
  · exact absurd h (by simp)
  · split at h
    · split at h
      · exact absurd h (by simp)
      · split at h
        · exact absurd h (by simp)
        · injection h with h
          have : n = 1 := (Prod.mk.injEq _ _ _ _).mp h |>.2.symm
          omega
    · injection h with h
      have : n = 0 := (Prod.mk.injEq _ _ _ _).mp h |>.2.symm
      omega

/-- C6: on a subsequent turn, a player whose hand matches no end of any chain
they may legally play on draws exactly one tile when the pile is non-empty
(after which the single re-attempt decides the turn), ends the turn with no
draw and no play when the pile is empty — their own chain being marked — and
in every case draws at most one tile. -/
theorem c6_forced_draw (s : GameState) (p : String)
    (hh : handOf s p ≠ [])
    (hcoh : ∀ sel ∈ get_playable_trains s p,
      CoherentB (lookupTrain s sel).tree = true)
    (hnm : ∀ sel ∈ get_playable_trains s p,
      ∀ e ∈ (lookupTrain s sel).playable_ends [],
      ∀ dd ∈ handOf s p, dd.matches e = false ∧ dd.matches_flipped e = false) :
    (s.boneyard = [] → play_turn s p = .ok (mark_train s p, 0)) ∧
    (∀ dTop rest, s.boneyard = dTop :: rest →
      play_turn s p = c6_redraw s p dTop rest) ∧
    (∀ s' n, play_turn s p = .ok (s', n) → n ≤ 1) ∧
    (p ∈ s.trains.map Prod.fst →
      (lookupTrain (mark_train s p) (.owned p)).marked = true) := by
  have hall : ∀ sel ∈ get_playable_trains s p,
      (lookupTrain s sel).playable_ends (handOf s p) = [] :=
    fun sel hsel => no_playable _ _ (hcoh sel hsel) hh (hnm sel hsel)
  have hatt := attempt_move_nomove hall
  have hmarkb : (mark_train s p).boneyard = s.boneyard := rfl
  refine ⟨?_, ?_, play_turn_draws_le_one s p,
    fun hp => marked_after_mark s p hp⟩
  · intro hb
    unfold play_turn
    split
    · rename_i e he
      rw [hatt] at he
      exact absurd he (by simp)
    · rename_i s1 moved h1
      rw [hatt] at h1
      injection h1 with h1
      cases h1
      rw [hmarkb, hb]
      simp
  · intro dTop rest hb
    unfold play_turn
    split
    · rename_i e he
      rw [hatt] at he
      exact absurd he (by simp)
    · rename_i s1 moved h1
      rw [hatt] at h1
      injection h1 with h1
      cases h1
      rw [hmarkb, hb]
      rfl

/-- The C6 witness game: player a holds only (1,2), no end matches it, and
the pile holds one tile. -/
def c6w : GameState :=
  ⟨[⟨"a", [⟨1, 2⟩]⟩, ⟨"b", [⟨3, 4⟩]⟩],
   [("a", Train.init "a" ⟨9, 9⟩), ("b", Train.init "b" ⟨9, 9⟩)],
   CommunityTrain.init ⟨9, 9⟩, ⟨9, 9⟩, [⟨0, 1⟩]⟩

/-- C6 witness: the blocked player's turn reduces to the drawn re-attempt. -/
theorem c6_forced_draw_witness :
    play_turn c6w "a" = c6_redraw c6w "a" ⟨0, 1⟩ [] :=
  (c6_forced_draw c6w "a" (by decide) (by decide) (by decide)).2.1 ⟨0, 1⟩ [] rfl

/-- Success test for game-level `Except` results. -/
def isOkG {α : Type} (e : Except GameError α) : Bool :=
  match e with
  | .ok _ => true
  | .error _ => false

/-- The body of the per-player loop of `Game.play_first_turn`: the player
makes a greedy move restricted to their own train, then a tile is drawn from
the boneyard unconditionally; if the drawn tile matches the engine in either
orientation it is attached straight onto the engine end of the player's
train, otherwise the player's train is marked — in both cases regardless of
whether the player just moved. -/
def play_first_turn_step (s : GameState) (p : String) :
    Except GameError GameState :=
  match try_trains p s [.owned p] with
  | .error e => .error (.runtime e)
  | .ok (s1, _) =>
    match s1.boneyard with
    | [] => .error (.runtime "draw from empty boneyard")
    | drawn :: rest =>
      if drawn.matches s1.engine || drawn.matches_flipped s1.engine then
        match (lookupTrain { s1 with boneyard := rest } (.owned p)).add_to_end
            s1.engine drawn with
        | .error e => .error (.runtime e)
        | .ok tr' => .ok (setTrain { s1 with boneyard := rest } (.owned p) tr')
      else
        .ok (setTrain { s1 with boneyard := rest } (.owned p)
          ((lookupTrain { s1 with boneyard := rest } (.owned p)).set_marked))

/-- First-turn evidence game: player a holds (9,3), which starts their train
on the (9,9) engine; the pile holds the non-matching (1,2). -/
def c3w : GameState :=
  ⟨[⟨"a", [⟨9, 3⟩]⟩], [("a", Train.init "a" ⟨9, 9⟩)],
   CommunityTrain.init ⟨9, 9⟩, ⟨9, 9⟩, [⟨1, 2⟩]⟩

/-- The same game with the pile holding (9,5), which matches the engine. -/
def c3w' : GameState :=
  ⟨[⟨"a", [⟨9, 3⟩]⟩, ⟨"b", [⟨1, 2⟩]⟩],
   [("a", Train.init "a" ⟨9, 9⟩), ("b", Train.init "b" ⟨9, 9⟩)],
   CommunityTrain.init ⟨9, 9⟩, ⟨9, 9⟩, [⟨9, 5⟩]⟩

/-- The state after player a's first turn in the evidence game. -/
def c3_resState : GameState :=
  match play_first_turn_step c3w "a" with
  | .ok s => s
  | .error _ => c3w

/-- C3 evidence: the player had a legal move at the start of their first turn
(and made it — their hand emptied and their train was started), yet the code
still drew the pile's tile and marked their train because the drawn tile did
not match the engine; and when the drawn tile does match the engine after a
successful play, the turn aborts with an exception instead of completing. -/
theorem c3_first_turn_code_evidence :
    can_move c3w "a" = true ∧
    isOkG (play_first_turn_step c3w "a") = true ∧
    c3_resState.boneyard = [] ∧
    handOf c3_resState "a" = [] ∧
    (lookupTrain c3_resState (.owned "a")).tree.root = some 0 ∧
    (lookupTrain c3_resState (.owned "a")).marked = true ∧
    isOkG (play_first_turn_step c3w' "a") = false := by
  decide
